import Mathlib

/-!
# Verification of the FreeCell engine (`fc.py`)

A shallow embedding of the FreeCell solitaire engine.  Python strings are
modelled as `List Char`, Python lists as Lean lists (a `Stack`'s top is the
*last* list element, matching `list.append`/`list.pop`), the `layout`
dictionary as an association list, and the game object as a `GameState`
record that every operation threads explicitly.  Python exceptions are
modelled by an explicit `PyExc` value: `one_line` catches `IndexError` and
`KeyError` (as in the source) while other exceptions escape as an `exc`
result.  `sys.exit` (the QUIT path) is the `quit` result.  Printed
messages are modelled by the `Msg` type.  The file-system side effects of
`log_move` (writing `freecell.log`) and the purely diagnostic rendering
code are outside the embedded state, and the vestigial `fond_head` /
`fond_tail` doubly-linked suit traversal is omitted: it is built at reset
and never consulted nor mutated by any move operation.
-/

namespace FC

/-- Python strings, modelled as lists of characters. -/
abbrev Str := List Char

/-- Whitespace characters stripped by Python's `str.strip()`. -/
def isWS (c : Char) : Bool :=
  c = ' ' || c = '\t' || c = '\n' || c = '\r' || c = '\x0b' || c = '\x0c'

/-- Python `str.strip()`: remove leading and trailing whitespace. -/
def pyStrip (s : Str) : Str :=
  ((s.dropWhile isWS).reverse.dropWhile isWS).reverse

/-- ASCII upper-casing of one character, as Python `str.upper()` does on ASCII. -/
def upChar (c : Char) : Char :=
  if 'a' ≤ c ∧ c ≤ 'z' then Char.ofNat (c.toNat - 32) else c

/-- Python `str.upper()` (ASCII fragment). -/
def pyUpper (s : Str) : Str := s.map upChar

/-- Python `str.split(sep)` for a one-character separator: splits at every
occurrence, keeping empty pieces, and returns `[""]` on the empty string. -/
def splitOnChar (sep : Char) : Str → List Str
  | [] => [[]]
  | c :: rest =>
    match splitOnChar sep rest with
    | [] => [[]]
    | p :: ps => if c = sep then [] :: p :: ps else (c :: p) :: ps

/-- Python `sep.join(pieces)`. -/
def joinWith (sep : Str) : List Str → Str
  | [] => []
  | [t] => t
  | t :: ts => t ++ sep ++ joinWith sep ts

/-- Numeric value of an ASCII digit. -/
def digVal (c : Char) : Option Nat :=
  if '0' ≤ c ∧ c ≤ '9' then some (c.toNat - '0'.toNat) else none

/-- Read a run of decimal digits; `none` if any character is not a digit. -/
def readDigits : List Char → Nat → Option Nat
  | [], acc => some acc
  | c :: cs, acc =>
    match digVal c with
    | some d => readDigits cs (acc * 10 + d)
    | none => none

/-- Python `int(str)`: optional surrounding whitespace, optional sign, then a
nonempty digit string; any other input raises `ValueError`, modelled as
`none`. -/
def pyInt (s : Str) : Option Int :=
  match pyStrip s with
  | [] => none
  | '+' :: cs =>
    match cs, readDigits cs 0 with
    | [], _ => none
    | _, some n => some (n : Int)
    | _, none => none
  | '-' :: cs =>
    match cs, readDigits cs 0 with
    | [], _ => none
    | _, some n => some (-(n : Int))
    | _, none => none
  | cs =>
    match readDigits cs 0 with
    | some n => some (n : Int)
    | none => none

/-- Python list indexing `l[i]`: negative indices count from the end, and an
index out of range raises `IndexError`, modelled by `none`.  Returns the
canonical non-negative index. -/
def pyIdx (len : Nat) (i : Int) : Option Nat :=
  if 0 ≤ i then (if i.toNat < len then some i.toNat else none)
  else (if 0 ≤ i + (len : Int) then some (i + (len : Int)).toNat else none)

/-- `Card = collections.namedtuple('Card', ['suit', 'rank'])`. -/
structure Card where
  suit : Nat
  rank : Nat
deriving DecidableEq, Repr

/-- `Card.RANK_STR = "A23456789TJQK"`. -/
def RANK_STR : Str := "A23456789TJQK".toList

/-- `Card.SUIT_STR = "CDHS"`. -/
def SUIT_STR : Str := "CDHS".toList

/-- `repr_card`: the two-character textual identity of a card. -/
def repr_card (c : Card) : Str :=
  [RANK_STR.getD c.rank 'A', SUIT_STR.getD c.suit 'C']

/-- `can_stack(card, under)`: rank difference exactly one and opposite colour
classes ({0,3} versus {1,2}).  The rank difference is computed over the
integers, as in Python. -/
def can_stack (card under : Card) : Bool :=
  if (under.rank : Int) - (card.rank : Int) ≠ 1 then false
  else if (under.suit = 0 ∨ under.suit = 3) ∧ ¬(card.suit = 1 ∨ card.suit = 2) then false
  else if (under.suit = 1 ∨ under.suit = 2) ∧ ¬(card.suit = 0 ∨ card.suit = 3) then false
  else true

/-- The `where` tag of a `Position`: the source stores `"F"`, `"O"`, `"C"`. -/
inductive Where
  | F
  | O
  | C
deriving DecidableEq, Repr

/-- The mutable `Position` record attached to each card. -/
structure Position where
  card : Card
  where_ : Where
  index : Nat
  depth : Nat
  weight : Nat
deriving DecidableEq, Repr

/-- The full game state mutated by the engine: seed, move log, open pool,
foundations, cascades and the card-name → `Position` index (`self.layout`). -/
structure GameState where
  seed : Int
  moves : List Str
  opn : List Card
  fond : List (List Card)
  cascades : List (List Card)
  layout : List (Str × Position)
deriving DecidableEq, Repr

/-- One step of `Game.random_generator`: `seed = (seed*214013 + 2531011) & 0x7FFFFFFF`. -/
def lcgNext (s : Nat) : Nat := (s * 214013 + 2531011) % 2147483648

/-- The generator's initial state: `seed & 0x7FFFFFFF` of the Python integer
seed (for any integer, `x & (2^31 - 1)` is `x mod 2^31`). -/
def seedInit (seed : Int) : Nat := (seed.emod 2147483648).toNat

/-- One iteration of the shuffle loop of `Game.reset`: draw `r` (the next
LCG state shifted right 16 bits) and swap `deck[i]` with `deck[j]` for
`j = 51 - r % (52 - i)`. -/
def shuffleStep (p : List Nat × Nat) (i : Nat) : List Nat × Nat :=
  let st := lcgNext p.2
  let r := st / 65536
  let j := 51 - r % (52 - i)
  let di := p.1.getD i 0
  let dj := p.1.getD j 0
  ((p.1.set i dj).set j di, st)

/-- The shuffle loop of `Game.reset`: deck starts as `range(51, -1, -1)`
and each `i` in `0..51` performs one `shuffleStep`. -/
def shuffle (seed : Int) : List Nat :=
  ((List.range 52).foldl shuffleStep ((List.range 52).reverse, seedInit seed)).1

/-- `cards = [Card(c % 4, c / 4) for c in deck]`. -/
def dealtCards (seed : Int) : List Card :=
  (shuffle seed).map (fun c => ⟨c % 4, c / 4⟩)

/-- The deal loop of `Game.reset`: push card `i` onto cascade `i % 8`
(first dealt at the bottom) and record its `Position` in the layout. -/
def dealLoop : List Card → Nat → List (List Card) → List (Str × Position) →
    List (List Card) × List (Str × Position)
  | [], _, cs, lay => (cs, lay)
  | card :: rest, i, cs, lay =>
    let s := i % 8
    let c' := cs.getD s [] ++ [card]
    let depth := c'.length - 1
    dealLoop rest (i + 1) (cs.set s c')
      (lay ++ [(repr_card card, ⟨card, .C, s, depth, 0⟩)])

/-- `Game.reset(seed)`: re-deals from the seed with empty move log, open
pool and foundations. -/
def reset (seed : Int) : GameState :=
  let dealt := dealLoop (dealtCards seed) 0 (List.replicate 8 []) []
  { seed := seed
    moves := []
    opn := []
    fond := List.replicate 4 []
    cascades := dealt.1
    layout := dealt.2 }

/-- The messages printed by the engine, one constructor per `print`. -/
inductive Msg
  | playFond
  | moveOpenCell
  | buildCasc
  | illegalMove
  | cardNotPlayable
  | noOpenCells
  | garble
  | huh
  | bye
deriving DecidableEq, Repr

/-- The Python exceptions the engine can raise. -/
inductive PyExc
  | attributeError
  | valueError
  | indexError
  | keyError
deriving DecidableEq, Repr

/-- Result of running one input line: normal return with the new state and
printed messages, `sys.exit` (QUIT), an uncaught exception escaping the
engine, or exhaustion of the recursion-depth fuel of the embedding. -/
inductive Res
  | ok : GameState → List Msg → Res
  | quit : List Msg → Res
  | exc : PyExc → List Msg → Res
  | noFuel : Res
deriving DecidableEq, Repr

/-- A fallible engine step: either a new state plus messages, or an exception. -/
abbrev TryRes := Except PyExc (GameState × List Msg)

/-- Replace the cascade at index `i` by its `pop` (drop the last element). -/
def popCasc (g : GameState) (i : Nat) : GameState :=
  { g with cascades := g.cascades.set i ((g.cascades.getD i []).dropLast) }

/-- Overwrite the position stored under `key` in the layout (in-place
mutation of the shared `Position` object in the source). -/
def setLayout (lay : List (Str × Position)) (key : Str) (p : Position) :
    List (Str × Position) :=
  lay.map (fun kp => if kp.1 = key then (kp.1, p) else kp)

/-- `Game.log_move`: append the move string to the log.  (The write of
`freecell.log` is a file-system effect outside the embedded state.) -/
def logMove (g : GameState) (mv : Str) : GameState :=
  { g with moves := g.moves ++ [mv] }

/-- `Game.do_play_foundation`: push onto the card's suit foundation and set
its position to `(F, 0, 0, 0)` — the source assigns `position.index = 0`. -/
def do_play_fond (g : GameState) (mv : Str) (card : Card) : GameState × List Msg :=
  let g1 := { g with
    fond := g.fond.set card.suit (g.fond.getD card.suit [] ++ [card])
    layout := setLayout g.layout (repr_card card) ⟨card, .F, 0, 0, 0⟩ }
  (logMove g1 mv, [.playFond])

/-- `Game.do_move_open_cell`: add to the open pool, position `(O, 0, 0, 0)`. -/
def do_move_open_cell (g : GameState) (mv : Str) (card : Card) : GameState × List Msg :=
  let g1 := { g with
    opn := g.opn ++ [card]
    layout := setLayout g.layout (repr_card card) ⟨card, .O, 0, 0, 0⟩ }
  (logMove g1 mv, [.moveOpenCell])

/-- `Game.do_build_cascade`: push onto cascade `ci` and set the position to
`(C, ci, new length - 1, 0)`.  In the source `c_index = cascades.index(c)`
searches by object identity (class `Stack` has no `__eq__`), so it always
recovers the canonical index of the destination object, here `ci`. -/
def do_build_cascade (g : GameState) (mv : Str) (card : Card) (ci : Nat) :
    GameState × List Msg :=
  let c' := g.cascades.getD ci [] ++ [card]
  let g1 := { g with
    cascades := g.cascades.set ci c'
    layout := setLayout g.layout (repr_card card) ⟨card, .C, ci, c'.length - 1, 0⟩ }
  (logMove g1 mv, [.buildCasc])

/-- `Game.try_play_foundation`.  The source's legality test
`(f.is_empty() and card.rank == 0) or (f.peek().rank == card.rank - 1)`
evaluates `f.peek().rank` whenever the first disjunct is false; if the
foundation is empty, `peek()` is `None` and `None.rank` raises
`AttributeError`. -/
def try_play_fond (g : GameState) (mv name : Str) : TryRes :=
  match g.layout.lookup name with
  | none => .error .keyError
  | some pos =>
    let card := pos.card
    match g.fond.get? card.suit with
    | none => .error .indexError
    | some f =>
      let legal : Except PyExc Bool :=
        if f.isEmpty ∧ card.rank = 0 then .ok true
        else
          match f.getLast? with
          | none => .error .attributeError
          | some top => .ok (decide ((top.rank : Int) = (card.rank : Int) - 1))
      match legal with
      | .error e => .error e
      | .ok false => .ok (g, [.illegalMove])
      | .ok true =>
        match pos.where_ with
        | .C =>
          match g.cascades.get? pos.index with
          | none => .error .indexError
          | some cc =>
            if cc.getLast? = some card then
              .ok (do_play_fond (popCasc g pos.index) mv card)
            else .ok (g, [.cardNotPlayable])
        | .O =>
          if card ∈ g.opn then
            .ok (do_play_fond { g with opn := g.opn.erase card } mv card)
          else .error .valueError
        | .F => .ok (g, [.cardNotPlayable])

/-- `Game.try_move_open_cell`.  The source checks `len(self.open) <= N_OPEN`
(with `N_OPEN = 4`), and reads `cascades[position.index]` before anything
else. -/
def try_move_open_cell (g : GameState) (mv name : Str) : TryRes :=
  match g.layout.lookup name with
  | none => .error .keyError
  | some pos =>
    let card := pos.card
    match g.cascades.get? pos.index with
    | none => .error .indexError
    | some cc =>
      if g.opn.length ≤ 4 then
        match pos.where_ with
        | .C =>
          if cc.getLast? = some card then
            .ok (do_move_open_cell (popCasc g pos.index) mv card)
          else .ok (g, [.cardNotPlayable])
        | _ => .ok (g, [.illegalMove])
      else .ok (g, [.noOpenCells])

/-- `Game.try_build_cascade`.  `dest_index` is an arbitrary Python integer:
negative values index from the end of the cascade list, out-of-range values
raise `IndexError`. -/
def try_build_cascade (g : GameState) (mv name : Str) (destIdx : Int) : TryRes :=
  match g.layout.lookup name with
  | none => .error .keyError
  | some pos =>
    let card := pos.card
    match pyIdx g.cascades.length destIdx with
    | none => .error .indexError
    | some ci =>
      let cdest := g.cascades.getD ci []
      let legal : Bool :=
        cdest.isEmpty ||
          (match cdest.getLast? with
          | some top => can_stack card top
          | none => false)
      if legal then
        match pos.where_ with
        | .C =>
          match g.cascades.get? pos.index with
          | none => .error .indexError
          | some csrc =>
            if csrc.getLast? = some card then
              .ok (do_build_cascade (popCasc g pos.index) mv card ci)
            else .ok (g, [.cardNotPlayable])
        | .O =>
          if card ∈ g.opn then
            .ok (do_build_cascade { g with opn := g.opn.erase card } mv card ci)
          else .error .valueError
        | .F => .ok (g, [.cardNotPlayable])
      else .ok (g, [.illegalMove])

/-- `"is the game won at this point?"` — one cascade's pass of
`Game.test_win`'s gradient scan, starting from `last_rank` (`N_RANKS = 12`
at the top level): the result stays `True` iff no gradient is negative. -/
def cascadePass : Int → List Card → Bool
  | _, [] => true
  | lastRank, c :: rest =>
    (decide (0 ≤ lastRank - (c.rank : Int))) && cascadePass (c.rank : Int) rest

/-- `Game.test_win`: true iff every cascade's gradient scan stays
non-negative. -/
def test_win (g : GameState) : Bool :=
  g.cascades.all (fun s => cascadePass 12 s)

/-- The per-cascade `(card, gradient)` diagnostic trace built by
`Game.test_win` when `verbose` is set. -/
def cascadeTrace : Int → List Card → List (Card × Int)
  | _, [] => []
  | lastRank, c :: rest =>
    (c, lastRank - (c.rank : Int)) :: cascadeTrace (c.rank : Int) rest

/-- `Game.test_win` with its verbose diagnostic: the boolean verdict
together with every cascade's `(card, gradient)` trace. -/
def test_win_trace (g : GameState) : Bool × List (List (Card × Int)) :=
  (g.cascades.all (fun s => (cascadeTrace 12 s).all (fun p => decide (0 ≤ p.2))),
   g.cascades.map (fun s => cascadeTrace 12 s))

/-- The command words prefix-matched by `Game.one_line`. -/
def QUIT_W : Str := "QUIT".toList

def REPLAY_W : Str := "REPLAY".toList

def UNDO_W : Str := "UNDO".toList

def ZAP_W : Str := "ZAP".toList

def FOND_W : Str := "FOUNDATION".toList

def OPEN_W : Str := "OPEN".toList

def CASC_W : Str := "CASCADE".toList

/-- `raw_line.strip().upper().split(" ")`. -/
def tokenize (raw : Str) : List Str :=
  splitOnChar ' ' (pyUpper (pyStrip raw))

/-- The `try`/`except` of `Game.one_line`: `IndexError` and `KeyError` are
caught (the state is left unchanged and `show_error` prints), all other
exceptions propagate. -/
def liftTry (g : GameState) : TryRes → Res
  | .ok (g', ms) => .ok g' ms
  | .error .indexError => .ok g [.garble]
  | .error .keyError => .ok g [.garble]
  | .error e => .exc e []

/-- `Game.replay_moves`' loop body: run each piece through `ol` in order;
`sys.exit` and uncaught exceptions abort the loop and propagate. -/
def replayListF (ol : GameState → Str → Res) : GameState → List Str → Res
  | g, [] => .ok g []
  | g, p :: ps =>
    match ol g p with
    | .ok g' ms =>
      match replayListF ol g' ps with
      | .ok g2 ms2 => .ok g2 (ms ++ ms2)
      | .quit ms2 => .quit (ms ++ ms2)
      | .exc e ms2 => .exc e (ms ++ ms2)
      | .noFuel => .noFuel
    | r => r

/-- `Game.one_line`: tokenise, prefix-match the meta commands QUIT, REPLAY,
UNDO, ZAP, otherwise dispatch a card move by destination prefix.  The
`fuel` argument bounds the nesting depth of `one_line` → `replay_moves` →
`one_line` (REPLAY and UNDO); every other branch ignores it. -/
def oneLine : Nat → GameState → Str → Res
  | 0, _, _ => .noFuel
  | fuel + 1, g, raw =>
    let line := tokenize raw
    let mv := joinWith [' '] line
    let t0 := line.headD []
    if t0.isPrefixOf QUIT_W then .quit [.bye]
    else if t0.isPrefixOf REPLAY_W then
      replayListF (oneLine fuel) g (splitOnChar ';' (joinWith [' '] line.tail))
    else if t0.isPrefixOf UNDO_W then
      replayListF (oneLine fuel) (reset g.seed)
        (splitOnChar ';' (joinWith [';', ' '] g.moves.dropLast))
    else if t0.isPrefixOf ZAP_W then .ok (reset g.seed) []
    else
      match line.get? 1 with
      | none => .ok g [.garble]
      | some dw =>
        if (g.layout.lookup t0).isNone then .ok g [.garble]
        else if dw.isPrefixOf FOND_W then liftTry g (try_play_fond g mv t0)
        else if dw.isPrefixOf OPEN_W then liftTry g (try_move_open_cell g mv t0)
        else if dw.isPrefixOf CASC_W then
          match line.get? 2 with
          | none => .ok g [.garble]
          | some it =>
            match pyInt it with
            | none => .exc .valueError []
            | some n => liftTry g (try_build_cascade g mv t0 n)
        else .ok g [.huh]

/-- `Game.replay_moves(log)`: split the log on `';'` and run each piece. -/
def replay_moves (fuel : Nat) (g : GameState) (log : Str) : Res :=
  replayListF (oneLine fuel) g (splitOnChar ';' log)

/-- The state carried by a normal (`ok`) result; an arbitrary placeholder
otherwise.  Used to write closed statements about concrete runs. -/
def resStateD : Res → GameState
  | .ok g _ => g
  | _ => reset 0

/-- Whether a result is a normal return. -/
def resIsOk : Res → Bool
  | .ok _ _ => true
  | _ => false

/-- The messages of a normal result. -/
def resMsgs : Res → List Msg
  | .ok _ ms => ms
  | .quit ms => ms
  | .exc _ ms => ms
  | .noFuel => []

/-- The 52 cards in deck-value order: value `c` is `(suit c mod 4, rank c div 4)`. -/
def deck52 : List Card := (List.range 52).map (fun c => ⟨c % 4, c / 4⟩)

/-- The 52 card-name strings. -/
def keys52 : List Str := deck52.map repr_card

/-- ASCII decimal digit for a value below ten. -/
def digChar (n : Nat) : Char := "0123456789".toList.getD n '0'

/-- Decimal digits of `n`, least significant first, with explicit fuel. -/
def natDigitsAux : Nat → Nat → Str
  | 0, _ => []
  | _ + 1, 0 => []
  | fuel + 1, n + 1 => digChar ((n + 1) % 10) :: natDigitsAux fuel ((n + 1) / 10)

/-- Decimal rendering of a natural number. -/
def natRepr (n : Nat) : Str :=
  if n = 0 then ['0'] else (natDigitsAux n n).reverse

/-- Decimal rendering of an integer. -/
def intRepr (i : Int) : Str :=
  if i < 0 then '-' :: natRepr i.natAbs else natRepr i.toNat

/-- The destination of one card-move command. -/
inductive MDest
  | toFond
  | toOpn
  | toCasc : Int → MDest
deriving DecidableEq, Repr

/-- The destination token(s) of a card-move command. -/
def destToks : MDest → List Str
  | .toFond => [['F']]
  | .toOpn => [['O']]
  | .toCasc i => [['C'], intRepr i]

/-- The token list of a card-move command: card name then destination. -/
def cmdToks (n : Str) (d : MDest) : List Str := n :: destToks d

/-- The rendered input line of a card-move command. -/
def renderCmd (n : Str) (d : MDest) : Str := joinWith [' '] (cmdToks n d)

/-- Game states reachable from a reset by submitting card-move commands
(the move-engine surface of the spec): each step is an input line
`<CARD> <DEST> [<IDX>]` for a genuine card name, processed by `one_line`
with a normal (non-exception, non-quit) outcome.  Rejected moves leave the
state unchanged, so including them loses nothing. -/
inductive Reach : GameState → Prop
  | init (seed : Int) : Reach (reset seed)
  | step {g g' : GameState} {ms : List Msg} (n : Str) (d : MDest) (f : Nat)
      (hr : Reach g) (hn : n ∈ keys52)
      (h : oneLine (f + 1) g (renderCmd n d) = .ok g' ms) : Reach g'

/-!
## The deal algorithm as the specification words it

These definitions are written from §4.2 of the spec ("Deterministic
dealer"), independently of the source translation above, to state the
refinement claim C4: LCG state `seed & 0x7FFFFFFF` stepped by
`state*214013 + 2531011 (mod 2^31)` yielding `state >> 16`; the deck
begins as the integers 51 down to 0; step `i` swaps positions `i` and
`j = 51 - (r mod (52 - i))`; value `c` becomes the card
`(c mod 4, c div 4)`; card `i` goes to cascade `i mod 8`, first dealt at
the bottom. -/

/-- Spec §4.2 step 1: the LCG state after `n` draws. -/
def specState (seed : Int) : Nat → Nat
  | 0 => (seed.emod (2 ^ 31)).toNat
  | n + 1 => (specState seed n * 214013 + 2531011) % 2 ^ 31

/-- Spec §4.2 step 1: the value yielded by draw `i` (zero-based). -/
def specDraw (seed : Int) (i : Nat) : Nat := specState seed (i + 1) / 2 ^ 16

/-- Swap two positions of a list. -/
def specSwap (ds : List Nat) (i j : Nat) : List Nat :=
  (ds.set i (ds.getD j 0)).set j (ds.getD i 0)

/-- Spec §4.2 steps 2–3: the deck after the first `n` swap steps, starting
from the integers 51 down to 0. -/
def specShuffleTo (seed : Int) : Nat → List Nat
  | 0 => (List.range 52).reverse
  | n + 1 =>
    let r := specDraw seed n
    specSwap (specShuffleTo seed n) n (51 - r % (52 - n))

/-- Spec §4.2 step 4: the 52 shuffled cards. -/
def specCards (seed : Int) : List Card :=
  (specShuffleTo seed 52).map (fun c => ⟨c % 4, c / 4⟩)

/-- Spec §4.2 step 5: cascade `k` receives the cards whose deal position is
congruent to `k` mod 8, in deal order (first dealt at the bottom). -/
def specCascades (seed : Int) : List (List Card) :=
  (List.range 8).map (fun k =>
    ((specCards seed).enum.filter (fun p => p.1 % 8 = k)).map Prod.snd)

/-- The behaviour of `one_line` on a card-move command with name token `n`
and destination `d`, written without the tokenisation (the lemma
`oneLine_moveCmd` identifies it with `one_line`).  This is stated directly
from the dispatch in `Game.one_line`. -/
def moveStep (g : GameState) (n : Str) (d : MDest) : Res :=
  if (g.layout.lookup n).isNone then .ok g [.garble]
  else
    match d with
    | .toFond => liftTry g (try_play_fond g (renderCmd n d) n)
    | .toOpn => liftTry g (try_move_open_cell g (renderCmd n d) n)
    | .toCasc i =>
      match pyInt (intRepr i) with
      | none => .exc .valueError []
      | some m => liftTry g (try_build_cascade g (renderCmd n d) n m)

/-- The multiset of cards held by a list of piles. -/
def mflat : List (List Card) → Multiset Card
  | [] => 0
  | s :: l => (s : Multiset Card) + mflat l

/-- The multiset of all cards held anywhere in the game state. -/
def allCardsM (g : GameState) : Multiset Card :=
  mflat g.cascades + (g.opn : Multiset Card) + mflat g.fond

/-- A position record points at the container actually holding its card:
cascade entries name the holding cascade, open entries lie in the pool,
and foundation entries (whose stored `index` is always `0` — the source
assigns `position.index = 0` in `do_play_foundation`) lie on their suit's
foundation. -/
def Agrees (g : GameState) (p : Position) : Prop :=
  match p.where_ with
  | .C => p.index < g.cascades.length ∧ p.card ∈ g.cascades.getD p.index []
  | .O => p.card ∈ g.opn
  | .F => p.index = 0 ∧ p.card.suit < g.fond.length ∧
      p.card ∈ g.fond.getD p.card.suit []

/-- The state invariant maintained by the engine: eight cascades, four
foundations, conservation of the 52-card multiset, and a sound and
complete position index. -/
structure Inv (g : GameState) : Prop where
  casc8 : g.cascades.length = 8
  fond4 : g.fond.length = 4
  cons : allCardsM g = (deck52 : Multiset Card)
  keysEq : ∀ kp ∈ g.layout, kp.1 = repr_card kp.2.card
  keysND : (g.layout.map Prod.fst).Nodup
  complete : ∀ c ∈ deck52, ∃ p, g.layout.lookup (repr_card c) = some p ∧ p.card = c
  agree : ∀ kp ∈ g.layout, Agrees g kp.2

/-- A cascade is rank-descending from bottom to top, judged by rank alone
(spec §4.5): each card's rank is at most its predecessor's. -/
def NonIncr (l : List Card) : Prop :=
  List.Chain' (fun a b => b.rank ≤ a.rank) l

/-- The state is exactly reproduced by resetting from its seed and
replaying its own move log (the undo/replay reconstruction property). -/
def Replays (g : GameState) : Prop :=
  (g.moves = [] ∧ g = reset g.seed) ∨
  (g.moves ≠ [] ∧ ∀ f, ∃ msgs,
    replayListF (oneLine (f + 1)) (reset g.seed)
      (splitOnChar ';' (joinWith [';', ' '] g.moves)) = .ok g msgs)

/-- Relation between a state and the state after removing one exposed card
from its source container (cascade pop or open-pool removal): everything
except the source container is untouched, one copy of the card has left
the combined multiset, and every other card's position still agrees. -/
structure Removed (g g1 : GameState) (card : Card) : Prop where
  seed_eq : g1.seed = g.seed
  moves_eq : g1.moves = g.moves
  layout_eq : g1.layout = g.layout
  casc_len : g1.cascades.length = g.cascades.length
  fond_eq : g1.fond = g.fond
  cons : allCardsM g1 + {card} = allCardsM g
  transport : ∀ p : Position, p.card ≠ card → Agrees g p → Agrees g1 p

/-! ## String-layer lemmas -/

theorem splitOnChar_ne_nil (sep : Char) (s : Str) : splitOnChar sep s ≠ [] := by
  cases s with
  | nil => simp [splitOnChar]
  | cons c rest =>
    simp only [splitOnChar]
    rcases h : splitOnChar sep rest with _ | ⟨p, ps⟩
    · simp
    · by_cases hc : c = sep <;> simp [hc]

theorem splitOnChar_cons_ne (sep c : Char) (s : Str) (p : Str) (ps : List Str)
    (hc : c ≠ sep) (h : splitOnChar sep s = p :: ps) :
    splitOnChar sep (c :: s) = (c :: p) :: ps := by
  simp only [splitOnChar, h, hc, if_false]

theorem splitOnChar_append_sep (sep : Char) (x y : Str) (hx : sep ∉ x) :
    splitOnChar sep (x ++ sep :: y) = x :: splitOnChar sep y := by
  induction x with
  | nil =>
    simp only [List.nil_append, splitOnChar]
    rcases h : splitOnChar sep y with _ | ⟨p, ps⟩
    · exact absurd h (splitOnChar_ne_nil sep y)
    · simp
  | cons c x ih =>
    have hc : c ≠ sep := fun h => hx (h ▸ List.mem_cons_self c x)
    have hx' : sep ∉ x := fun h => hx (List.mem_cons_of_mem c h)
    exact splitOnChar_cons_ne sep c _ _ _ hc (ih hx')

theorem splitOnChar_of_not_mem (sep : Char) (s : Str) (h : sep ∉ s) :
    splitOnChar sep s = [s] := by
  induction s with
  | nil => simp [splitOnChar]
  | cons c rest ih =>
    have hc : c ≠ sep := fun hh => h (hh ▸ List.mem_cons_self c rest)
    have h' : sep ∉ rest := fun hh => h (List.mem_cons_of_mem c hh)
    exact splitOnChar_cons_ne sep c _ _ _ hc (ih h')

theorem split_join (sep : Char) (ts : List Str) (h : ∀ t ∈ ts, sep ∉ t)
    (hne : ts ≠ []) : splitOnChar sep (joinWith [sep] ts) = ts := by
  induction ts with
  | nil => exact absurd rfl hne
  | cons t ts ih =>
    cases ts with
    | nil =>
      exact splitOnChar_of_not_mem sep t (h t (List.mem_cons_self t []))
    | cons t2 ts2 =>
      have ht : sep ∉ t := h t (List.mem_cons_self _ _)
      have hrest : ∀ u ∈ t2 :: ts2, sep ∉ u := fun u hu =>
        h u (List.mem_cons_of_mem t hu)
      have : joinWith [sep] (t :: t2 :: ts2) = t ++ sep :: joinWith [sep] (t2 :: ts2) := by
        simp [joinWith]
      rw [this, splitOnChar_append_sep sep t _ ht, ih hrest (by simp)]

theorem split_joinSemi (m : Str) (ms : List Str) (h : ∀ t ∈ m :: ms, ';' ∉ t) :
    splitOnChar ';' (joinWith [';', ' '] (m :: ms)) =
      m :: ms.map (fun t => ' ' :: t) := by
  induction ms generalizing m with
  | nil =>
    exact splitOnChar_of_not_mem ';' m (h m (List.mem_cons_self _ _))
  | cons m2 ms2 ih =>
    have hm : ';' ∉ m := h m (List.mem_cons_self _ _)
    have h2 : ∀ t ∈ m2 :: ms2, ';' ∉ t := fun t ht =>
      h t (List.mem_cons_of_mem m ht)
    have hj : joinWith [';', ' '] (m :: m2 :: ms2) =
        m ++ ';' :: ' ' :: joinWith [';', ' '] (m2 :: ms2) := by
      simp [joinWith]
    rw [hj, splitOnChar_append_sep ';' m _ hm]
    rcases hs : splitOnChar ';' (joinWith [';', ' '] (m2 :: ms2)) with _ | ⟨p, ps⟩
    · exact absurd hs (splitOnChar_ne_nil _ _)
    · rw [ih m2 h2] at hs
      cases hs
      rw [splitOnChar_cons_ne ';' ' ' _ _ _ (by decide) (by rw [ih m2 h2])]
      simp

theorem pyStrip_eq_self (s : Str) (hh : ∀ c, s.head? = some c → isWS c = false)
    (hl : ∀ c, s.getLast? = some c → isWS c = false) : pyStrip s = s := by
  unfold pyStrip
  cases s with
  | nil => simp
  | cons c rest =>
    rw [List.dropWhile_cons_of_neg (by simp [hh c rfl])]
    rcases hr : (c :: rest).reverse with _ | ⟨d, ds⟩
    · simp at hr
    · have hd : (c :: rest).getLast? = some d := by
        rw [List.getLast?_eq_head?_reverse, hr]; rfl
      rw [List.dropWhile_cons_of_neg (by simp [hl d hd]), ← hr,
        List.reverse_reverse]

theorem pyStrip_cons_space (s : Str) : pyStrip (' ' :: s) = pyStrip s := by
  unfold pyStrip
  rw [List.dropWhile_cons_of_pos (by decide)]

theorem tokenize_cons_space (s : Str) : tokenize (' ' :: s) = tokenize s := by
  unfold tokenize
  rw [pyStrip_cons_space]

/-! ## Character facts about card names and rendered commands -/

theorem keys52_clean : ∀ k ∈ keys52, pyUpper k = k ∧ ' ' ∉ k ∧ ';' ∉ k ∧
    k ≠ [] ∧ (∀ c ∈ k, isWS c = false) := by decide

theorem keys52_not_meta : ∀ k ∈ keys52, k.isPrefixOf QUIT_W = false ∧
    k.isPrefixOf REPLAY_W = false ∧ k.isPrefixOf UNDO_W = false ∧
    k.isPrefixOf ZAP_W = false := by decide

theorem digChar_clean (m : Nat) :
    upChar (digChar m) = digChar m ∧ isWS (digChar m) = false ∧
      digChar m ≠ ';' ∧ digChar m ≠ ' ' := by
  by_cases h : m < 10
  · interval_cases m <;> decide
  · have h0 : digChar m = '0' := by
      unfold digChar
      exact List.getD_eq_default _ _ (le_of_not_lt (by simpa using h))
    rw [h0]; decide

theorem natDigitsAux_chars (f : Nat) : ∀ n, ∀ c ∈ natDigitsAux f n, ∃ m, c = digChar m := by
  induction f with
  | zero => intro n c hc; simp [natDigitsAux] at hc
  | succ f ih =>
    intro n c hc
    cases n with
    | zero => simp [natDigitsAux] at hc
    | succ n =>
      rw [natDigitsAux] at hc
      rcases List.mem_cons.mp hc with h | h
      · exact ⟨_, h⟩
      · exact ih _ c h

theorem natRepr_clean (n : Nat) : ∀ c ∈ natRepr n,
    upChar c = c ∧ isWS c = false ∧ c ≠ ';' ∧ c ≠ ' ' := by
  intro c hc
  unfold natRepr at hc
  by_cases h : n = 0
  · rw [if_pos h] at hc
    simp at hc
    rw [hc]; decide
  · rw [if_neg h, List.mem_reverse] at hc
    obtain ⟨m, rfl⟩ := natDigitsAux_chars n n c hc
    exact digChar_clean m

theorem intRepr_clean (i : Int) : ∀ c ∈ intRepr i,
    upChar c = c ∧ isWS c = false ∧ c ≠ ';' ∧ c ≠ ' ' := by
  intro c hc
  unfold intRepr at hc
  by_cases h : i < 0
  · rw [if_pos h] at hc
    rcases List.mem_cons.mp hc with rfl | hm
    · decide
    · exact natRepr_clean _ c hm
  · rw [if_neg h] at hc
    exact natRepr_clean _ c hc

theorem natRepr_ne_nil (n : Nat) : natRepr n ≠ [] := by
  unfold natRepr
  by_cases h : n = 0
  · simp [h]
  · obtain ⟨m, rfl⟩ := Nat.exists_eq_succ_of_ne_zero h
    simp [natDigitsAux]

theorem intRepr_ne_nil (i : Int) : intRepr i ≠ [] := by
  unfold intRepr
  by_cases h : i < 0
  · simp [h]
  · simp [h, natRepr_ne_nil]

theorem map_id_of_fix {l : List Char} {f : Char → Char} (h : ∀ c ∈ l, f c = c) :
    l.map f = l := by
  conv_rhs => rw [← List.map_id l]
  exact List.map_congr_left h

/-- Tokenising `<name> ++ " " ++ rest` for a clean card name. -/
theorem tokenize_name_rest (n : Str) (hn : n ∈ keys52) (s : Str) (hs : s ≠ [])
    (hlast : ∀ c, s.getLast? = some c → isWS c = false)
    (hcu : ∀ c ∈ s, upChar c = c) :
    tokenize (n ++ ' ' :: s) = n :: splitOnChar ' ' s := by
  obtain ⟨hup, hsp, _, hne, hws⟩ := keys52_clean n hn
  have h1 : pyStrip (n ++ ' ' :: s) = n ++ ' ' :: s := by
    apply pyStrip_eq_self
    · intro c hc
      rcases n with _ | ⟨a, as⟩
      · exact absurd rfl hne
      · simp only [List.cons_append, List.head?_cons, Option.some.injEq] at hc
        subst hc
        exact hws _ (List.mem_cons_self _ _)
    · intro c hc
      rw [List.getLast?_append_of_ne_nil _ (by simp)] at hc
      have h2 : (' ' :: s).getLast? = s.getLast? := by
        cases s with
        | nil => exact absurd rfl hs
        | cons b bs => rfl
      rw [h2] at hc
      exact hlast c hc
  have h2 : pyUpper (n ++ ' ' :: s) = n ++ ' ' :: s := by
    have h3 : pyUpper (n ++ ' ' :: s) = pyUpper n ++ pyUpper (' ' :: s) :=
      List.map_append _ _ _
    rw [h3, hup]
    congr 1
    show upChar ' ' :: s.map upChar = ' ' :: s
    rw [map_id_of_fix hcu, show upChar ' ' = ' ' from by decide]
  unfold tokenize
  rw [h1, h2]
  exact splitOnChar_append_sep ' ' n s hsp

/-- A rendered card-move command survives `strip`, `upper` and `split`
unchanged: its token list is exactly `cmdToks n d`. -/
theorem tok_render (n : Str) (d : MDest) (hn : n ∈ keys52) :
    tokenize (renderCmd n d) = cmdToks n d := by
  cases d with
  | toFond =>
    have hj : renderCmd n .toFond = n ++ ' ' :: ['F'] := by
      simp [renderCmd, cmdToks, destToks, joinWith]
    rw [hj, tokenize_name_rest n hn ['F'] (by simp)
        (by intro c hc; simp at hc; subst hc; decide)
        (by intro c hc; simp at hc; subst hc; decide),
      splitOnChar_of_not_mem ' ' ['F'] (by decide)]
    rfl
  | toOpn =>
    have hj : renderCmd n .toOpn = n ++ ' ' :: ['O'] := by
      simp [renderCmd, cmdToks, destToks, joinWith]
    rw [hj, tokenize_name_rest n hn ['O'] (by simp)
        (by intro c hc; simp at hc; subst hc; decide)
        (by intro c hc; simp at hc; subst hc; decide),
      splitOnChar_of_not_mem ' ' ['O'] (by decide)]
    rfl
  | toCasc i =>
    have hj : renderCmd n (.toCasc i) = n ++ ' ' :: (['C'] ++ ' ' :: intRepr i) := by
      simp [renderCmd, cmdToks, destToks, joinWith]
    have hic := intRepr_clean i
    have hlast : ∀ c, (['C'] ++ ' ' :: intRepr i).getLast? = some c → isWS c = false := by
      intro c hc
      rw [List.getLast?_append_of_ne_nil _ (by simp)] at hc
      have h2 : (' ' :: intRepr i).getLast? = (intRepr i).getLast? := by
        rcases hr : intRepr i with _ | ⟨b, bs⟩
        · exact absurd hr (intRepr_ne_nil i)
        · rfl
      rw [h2] at hc
      exact (hic c (List.mem_of_mem_getLast? hc)).2.1
    have hcu : ∀ c ∈ ['C'] ++ ' ' :: intRepr i, upChar c = c := by
      intro c hc
      rcases List.mem_append.mp hc with h | h
      · simp at h; subst h; decide
      · rcases List.mem_cons.mp h with rfl | h
        · decide
        · exact (hic c h).1
    rw [hj, tokenize_name_rest n hn _ (by simp) hlast hcu,
      splitOnChar_append_sep ' ' ['C'] _ (by decide),
      splitOnChar_of_not_mem ' ' (intRepr i)
        (fun hmem => ((hic ' ' hmem).2.2.2 rfl))]
    rfl

/-- `one_line` on any raw line whose tokens form a card-move command for a
genuine card name acts as `moveStep`; in particular the outcome does not
depend on the remaining fuel. -/
theorem oneLine_moveCmd (f : Nat) (g : GameState) (n : Str) (d : MDest) (raw : Str)
    (hn : n ∈ keys52) (ht : tokenize raw = cmdToks n d) :
    oneLine (f + 1) g raw = moveStep g n d := by
  obtain ⟨hq, hr, hu, hz⟩ := keys52_not_meta n hn
  cases d with
  | toFond =>
    have h1 : (['F'] : Str).isPrefixOf FOND_W = true := by decide
    simp only [oneLine, ht, cmdToks, destToks, moveStep, renderCmd,
      List.headD_cons, hq, hr, hu, hz, Bool.false_eq_true, if_false,
      List.get?, h1, if_true]
  | toOpn =>
    have h1 : (['O'] : Str).isPrefixOf FOND_W = false := by decide
    have h2 : (['O'] : Str).isPrefixOf OPEN_W = true := by decide
    simp only [oneLine, ht, cmdToks, destToks, moveStep, renderCmd,
      List.headD_cons, hq, hr, hu, hz, Bool.false_eq_true, if_false,
      List.get?, h1, h2, if_true]
  | toCasc i =>
    have h1 : (['C'] : Str).isPrefixOf FOND_W = false := by decide
    have h2 : (['C'] : Str).isPrefixOf OPEN_W = false := by decide
    have h3 : (['C'] : Str).isPrefixOf CASC_W = true := by decide
    simp only [oneLine, ht, cmdToks, destToks, moveStep, renderCmd,
      List.headD_cons, hq, hr, hu, hz, Bool.false_eq_true, if_false,
      List.get?, h1, h2, h3, if_true]

/-! ## List, multiset and layout helpers -/

theorem getD_set_eq {α : Type} (l : List α) (i : Nat) (a d : α) (h : i < l.length) :
    (l.set i a).getD i d = a := by
  induction l generalizing i with
  | nil => simp at h
  | cons x xs ih =>
    cases i with
    | zero => rfl
    | succ i => exact ih i (by simpa using h)

theorem getD_set_ne {α : Type} (l : List α) (i j : Nat) (a d : α) (h : i ≠ j) :
    (l.set i a).getD j d = l.getD j d := by
  induction l generalizing i j with
  | nil => simp
  | cons x xs ih =>
    cases i with
    | zero =>
      cases j with
      | zero => exact absurd rfl h
      | succ j => rfl
    | succ i =>
      cases j with
      | zero => rfl
      | succ j => exact ih i j (fun hh => h (by rw [hh]))

theorem mflat_cons (s : List Card) (l : List (List Card)) :
    mflat (s :: l) = (s : Multiset Card) + mflat l := rfl

theorem mem_mflat_of_getD {l : List (List Card)} {i : Nat} {x : Card}
    (h : i < l.length) (hx : x ∈ l.getD i []) : x ∈ mflat l := by
  induction l generalizing i with
  | nil => simp at h
  | cons s ss ih =>
    rw [mflat_cons, Multiset.mem_add]
    cases i with
    | zero => exact Or.inl (by simpa using hx)
    | succ i => exact Or.inr (ih (by simpa using h) hx)

theorem mflat_set (l : List (List Card)) (i : Nat) (a : List Card) (h : i < l.length) :
    mflat (l.set i a) + (l.getD i [] : Multiset Card) = mflat l + (a : Multiset Card) := by
  induction l generalizing i with
  | nil => simp at h
  | cons x xs ih =>
    cases i with
    | zero =>
      show mflat (a :: xs) + (x : Multiset Card) = _
      rw [mflat_cons, mflat_cons]
      abel
    | succ i =>
      show mflat (x :: xs.set i a) + ((xs.getD i [] : Multiset Card)) = _
      rw [mflat_cons, mflat_cons, add_assoc, ih i (by simpa using h)]
      abel

theorem coe_eq_dropLast_add {l : List Card} {a : Card} (h : l.getLast? = some a) :
    (l : Multiset Card) = (l.dropLast : Multiset Card) + {a} := by
  conv_lhs => rw [← List.dropLast_append_getLast? a h]
  rw [← Multiset.coe_add]
  rfl

theorem mem_dropLast_of_ne {l : List Card} {a x : Card} (h : l.getLast? = some a)
    (hx : x ∈ l) (hne : x ≠ a) : x ∈ l.dropLast := by
  have h2 : l.dropLast ++ [a] = l := List.dropLast_append_getLast? a h
  rw [← h2] at hx
  rcases List.mem_append.mp hx with h3 | h3
  · exact h3
  · simp at h3
    exact absurd h3 hne

theorem lookup_mem {lay : List (Str × Position)} {k : Str} {p : Position}
    (h : lay.lookup k = some p) : (k, p) ∈ lay := by
  induction lay with
  | nil => simp [List.lookup] at h
  | cons kp rest ih =>
    rw [List.lookup] at h
    by_cases hk : k == kp.1
    · rw [hk] at h
      simp at h
      rw [← h]
      have : k = kp.1 := by
        have := hk
        simpa [beq_iff_eq] using this
      rw [this]
      exact List.mem_cons_self _ _
    · rw [Bool.not_eq_true] at hk
      rw [hk] at h
      exact List.mem_cons_of_mem _ (ih h)

theorem setLayout_map_fst (lay : List (Str × Position)) (key : Str) (q : Position) :
    (setLayout lay key q).map Prod.fst = lay.map Prod.fst := by
  unfold setLayout
  rw [List.map_map]
  apply List.map_congr_left
  intro kp _
  by_cases h : kp.1 = key <;> simp [h]

theorem mem_setLayout {lay : List (Str × Position)} {key : Str} {q : Position}
    {kp : Str × Position} (h : kp ∈ setLayout lay key q) :
    (kp ∈ lay ∧ kp.1 ≠ key) ∨ kp = (key, q) := by
  unfold setLayout at h
  rcases List.mem_map.mp h with ⟨kp0, hmem, heq⟩
  by_cases hk : kp0.1 = key
  · rw [if_pos hk] at heq
    exact Or.inr (by rw [← heq, hk])
  · rw [if_neg hk] at heq
    exact Or.inl ⟨heq ▸ hmem, by rw [← heq]; exact hk⟩

theorem lookup_setLayout (lay : List (Str × Position)) (key k : Str) (q : Position) :
    (setLayout lay key q).lookup k =
      if k = key then (lay.lookup k).map (fun _ => q) else lay.lookup k := by
  induction lay with
  | nil => by_cases h : k = key <;> simp [setLayout, List.lookup, h]
  | cons kp rest ih =>
    show ((if kp.1 = key then (kp.1, q) else kp) :: setLayout rest key q).lookup k = _
    by_cases h1 : kp.1 = key
    · rw [if_pos h1]
      by_cases h2 : k = kp.1
      · rw [List.lookup, List.lookup]
        have hb : (k == kp.1) = true := by simpa [beq_iff_eq] using h2
        rw [hb]
        simp [h2, h1]
      · rw [List.lookup, List.lookup]
        have hb : (k == kp.1) = false := by simpa [beq_iff_eq] using h2
        rw [hb, ih]
    · rw [if_neg h1]
      by_cases h2 : k = kp.1
      · rw [List.lookup, List.lookup]
        have hb : (k == kp.1) = true := by simpa [beq_iff_eq] using h2
        rw [hb]
        have : ¬ k = key := by rw [h2]; exact h1
        simp [this]
      · rw [List.lookup, List.lookup]
        have hb : (k == kp.1) = false := by simpa [beq_iff_eq] using h2
        rw [hb, ih]

theorem deck52_nodup : deck52.Nodup := by decide

theorem deck52_props : ∀ c ∈ deck52, c.suit < 4 ∧ c.rank ≤ 12 := by decide

theorem repr_card_inj : ∀ a ∈ deck52, ∀ b ∈ deck52,
    repr_card a = repr_card b → a = b := by decide

theorem get?_some_getD {α : Type} {l : List α} {i : Nat} {a : α} (d : α)
    (h : l.get? i = some a) : i < l.length ∧ l.getD i d = a := by
  induction l generalizing i with
  | nil => simp [List.get?] at h
  | cons x xs ih =>
    cases i with
    | zero =>
      simp [List.get?] at h
      subst h
      exact ⟨by simp, rfl⟩
    | succ i =>
      obtain ⟨h1, h2⟩ := ih (by simpa [List.get?] using h)
      exact ⟨by simpa using Nat.succ_lt_succ h1, h2⟩

/-! ## Removing a card from its source container -/

theorem removed_pop {g : GameState} {i : Nat} {csrc : List Card} {card : Card}
    (hi : i < g.cascades.length) (hgetD : g.cascades.getD i [] = csrc)
    (hlast : csrc.getLast? = some card) : Removed g (popCasc g i) card := by
  have hcasc : (popCasc g i).cascades = g.cascades.set i csrc.dropLast := by
    show g.cascades.set i ((g.cascades.getD i []).dropLast) = _
    rw [hgetD]
  have hmf : mflat (g.cascades.set i csrc.dropLast) + {card} = mflat g.cascades := by
    have h1 := mflat_set g.cascades i (csrc.dropLast) hi
    rw [hgetD, coe_eq_dropLast_add hlast] at h1
    have h3 : (mflat (g.cascades.set i csrc.dropLast) + {card}) +
        (csrc.dropLast : Multiset Card) =
        mflat g.cascades + (csrc.dropLast : Multiset Card) := by
      rw [← h1]; abel
    exact add_right_cancel h3
  refine ⟨rfl, rfl, rfl, by rw [hcasc]; simp, rfl, ?_, ?_⟩
  · unfold allCardsM
    rw [hcasc]
    have hopn : (popCasc g i).opn = g.opn := rfl
    have hfond : (popCasc g i).fond = g.fond := rfl
    rw [hopn, hfond]
    calc mflat (g.cascades.set i csrc.dropLast) + (g.opn : Multiset Card) +
        mflat g.fond + {card}
        = (mflat (g.cascades.set i csrc.dropLast) + {card}) + (g.opn : Multiset Card) +
          mflat g.fond := by abel
      _ = mflat g.cascades + (g.opn : Multiset Card) + mflat g.fond := by rw [hmf]
  · intro p hne hag
    unfold Agrees at hag ⊢
    cases hw : p.where_ with
    | C =>
      rw [hw] at hag
      obtain ⟨hb, hm⟩ := hag
      rw [hcasc]
      refine ⟨by simpa using hb, ?_⟩
      by_cases hij : p.index = i
      · subst hij
        rw [getD_set_eq _ _ _ _ hb]
        rw [hgetD] at hm
        exact mem_dropLast_of_ne hlast hm hne
      · rw [getD_set_ne _ _ _ _ _ (fun hh => hij hh.symm)]
        exact hm
    | O => rw [hw] at hag; exact hag
    | F => rw [hw] at hag; exact hag

theorem removed_erase {g : GameState} {card : Card} (hmem : card ∈ g.opn) :
    Removed g { g with opn := g.opn.erase card } card := by
  refine ⟨rfl, rfl, rfl, rfl, rfl, ?_, ?_⟩
  · show mflat g.cascades + ((g.opn.erase card : List Card) : Multiset Card) +
      mflat g.fond + {card} = _
    have h1 : ((g.opn.erase card : List Card) : Multiset Card) + {card} =
        (g.opn : Multiset Card) := by
      rw [← Multiset.coe_erase]
      rw [add_comm, Multiset.singleton_add]
      exact Multiset.cons_erase (by simpa using hmem)
    calc mflat g.cascades + ((g.opn.erase card : List Card) : Multiset Card) +
        mflat g.fond + {card}
        = mflat g.cascades + (((g.opn.erase card : List Card) : Multiset Card) +
          {card}) + mflat g.fond := by abel
      _ = mflat g.cascades + (g.opn : Multiset Card) + mflat g.fond := by rw [h1]
      _ = allCardsM g := rfl
  · intro p hne hag
    unfold Agrees at hag ⊢
    cases hw : p.where_ with
    | C => rw [hw] at hag; exact hag
    | O =>
      rw [hw] at hag
      exact List.mem_erase_of_ne hne |>.mpr hag
    | F => rw [hw] at hag; exact hag

theorem complete_setLayout {lay : List (Str × Position)}
    (hcmpl : ∀ c ∈ deck52, ∃ p, lay.lookup (repr_card c) = some p ∧ p.card = c)
    {card : Card} (hcard : card ∈ deck52) {q : Position} (hq : q.card = card) :
    ∀ c ∈ deck52, ∃ p,
      (setLayout lay (repr_card card) q).lookup (repr_card c) = some p ∧ p.card = c := by
  intro c hc
  rw [lookup_setLayout]
  by_cases he : repr_card c = repr_card card
  · have hcc : c = card := repr_card_inj c hc card hcard he
    obtain ⟨p, hp, _⟩ := hcmpl c hc
    rw [if_pos he, hp]
    exact ⟨q, rfl, by rw [hq, hcc]⟩
  · rw [if_neg he]
    exact hcmpl c hc

theorem keysEq_setLayout {lay : List (Str × Position)}
    (hk : ∀ kp ∈ lay, kp.1 = repr_card kp.2.card)
    {card : Card} {q : Position} (hq : q.card = card) :
    ∀ kp ∈ setLayout lay (repr_card card) q, kp.1 = repr_card kp.2.card := by
  intro kp hkp
  rcases mem_setLayout hkp with ⟨hmem, _⟩ | rfl
  · exact hk kp hmem
  · show repr_card card = repr_card q.card
    rw [hq]

/-! ## Adding the removed card to its destination container -/

theorem inv_add_fond {g g1 : GameState} {card : Card} (mv : Str)
    (hInv : Inv g) (hrem : Removed g g1 card) (hcard : card ∈ deck52) :
    Inv (do_play_fond g1 mv card).1 := by
  obtain ⟨hseed, hmoves, hlay, hclen, hfond, hcons, htrans⟩ := hrem
  have hsuit : card.suit < g1.fond.length := by
    rw [hfond, hInv.fond4]
    exact (deck52_props card hcard).1
  have hg2f : (do_play_fond g1 mv card).1.fond =
      g1.fond.set card.suit (g1.fond.getD card.suit [] ++ [card]) := rfl
  have hg2l : (do_play_fond g1 mv card).1.layout =
      setLayout g1.layout (repr_card card) ⟨card, .F, 0, 0, 0⟩ := rfl
  have hmff : mflat ((do_play_fond g1 mv card).1.fond) = mflat g1.fond + {card} := by
    rw [hg2f]
    have h1 := mflat_set g1.fond card.suit (g1.fond.getD card.suit [] ++ [card]) hsuit
    have h2 : ((g1.fond.getD card.suit [] ++ [card] : List Card) : Multiset Card) =
        (g1.fond.getD card.suit [] : Multiset Card) + {card} := rfl
    rw [h2] at h1
    have h3 : mflat (g1.fond.set card.suit (g1.fond.getD card.suit [] ++ [card])) +
        (g1.fond.getD card.suit [] : Multiset Card) =
        (mflat g1.fond + {card}) + (g1.fond.getD card.suit [] : Multiset Card) := by
      rw [h1]; abel
    exact add_right_cancel h3
  refine ⟨?_, ?_, ?_, ?_, ?_, ?_, ?_⟩
  · show g1.cascades.length = 8
    rw [hclen, hInv.casc8]
  · rw [hg2f, List.length_set, hfond, hInv.fond4]
  · show mflat g1.cascades + (g1.opn : Multiset Card) +
      mflat ((do_play_fond g1 mv card).1.fond) = _
    rw [hmff]
    calc mflat g1.cascades + (g1.opn : Multiset Card) + (mflat g1.fond + {card})
        = allCardsM g1 + {card} := by unfold allCardsM; abel
      _ = allCardsM g := hcons
      _ = _ := hInv.cons
  · rw [hg2l, hlay]
    exact keysEq_setLayout hInv.keysEq rfl
  · rw [hg2l, setLayout_map_fst, hlay]
    exact hInv.keysND
  · rw [hg2l, hlay]
    exact complete_setLayout hInv.complete hcard rfl
  · rw [hg2l]
    intro kp hkp
    rcases mem_setLayout hkp with ⟨hmem, hne⟩ | rfl
    · rw [hlay] at hmem
      have hpc : kp.2.card ≠ card := by
        intro hh
        exact hne (by rw [hInv.keysEq kp hmem, hh])
      have hag1 : Agrees g1 kp.2 := htrans kp.2 hpc (hInv.agree kp hmem)
      unfold Agrees at hag1 ⊢
      cases hw : kp.2.where_ with
      | C => rw [hw] at hag1; exact hag1
      | O => rw [hw] at hag1; exact hag1
      | F =>
        rw [hw] at hag1
        obtain ⟨hidx, hslt, hmem2⟩ := hag1
        refine ⟨hidx, by rw [hg2f, List.length_set]; exact hslt, ?_⟩
        rw [hg2f]
        by_cases hs : kp.2.card.suit = card.suit
        · rw [hs, getD_set_eq _ _ _ _ hsuit]
          exact List.mem_append_left _ (by rw [← hs]; exact hmem2)
        · rw [getD_set_ne _ _ _ _ _ (fun hh => hs hh.symm)]
          exact hmem2
    · show Agrees _ (⟨card, .F, 0, 0, 0⟩ : Position)
      unfold Agrees
      refine ⟨rfl, ?_, ?_⟩
      · show card.suit < (do_play_fond g1 mv card).1.fond.length
        rw [hg2f, List.length_set]
        exact hsuit
      · show card ∈ (do_play_fond g1 mv card).1.fond.getD card.suit []
        rw [hg2f, getD_set_eq _ _ _ _ hsuit]
        exact List.mem_append_right _ (List.mem_singleton_self card)

theorem inv_add_opn {g g1 : GameState} {card : Card} (mv : Str)
    (hInv : Inv g) (hrem : Removed g g1 card) (hcard : card ∈ deck52) :
    Inv (do_move_open_cell g1 mv card).1 := by
  obtain ⟨hseed, hmoves, hlay, hclen, hfond, hcons, htrans⟩ := hrem
  have hg2o : (do_move_open_cell g1 mv card).1.opn = g1.opn ++ [card] := rfl
  have hg2l : (do_move_open_cell g1 mv card).1.layout =
      setLayout g1.layout (repr_card card) ⟨card, .O, 0, 0, 0⟩ := rfl
  refine ⟨?_, ?_, ?_, ?_, ?_, ?_, ?_⟩
  · show g1.cascades.length = 8
    rw [hclen, hInv.casc8]
  · show g1.fond.length = 4
    rw [hfond, hInv.fond4]
  · show mflat g1.cascades + ((g1.opn ++ [card] : List Card) : Multiset Card) +
      mflat g1.fond = _
    have h2 : ((g1.opn ++ [card] : List Card) : Multiset Card) =
        (g1.opn : Multiset Card) + {card} := rfl
    rw [h2]
    calc mflat g1.cascades + ((g1.opn : Multiset Card) + {card}) + mflat g1.fond
        = allCardsM g1 + {card} := by unfold allCardsM; abel
      _ = allCardsM g := hcons
      _ = _ := hInv.cons
  · rw [hg2l, hlay]
    exact keysEq_setLayout hInv.keysEq rfl
  · rw [hg2l, setLayout_map_fst, hlay]
    exact hInv.keysND
  · rw [hg2l, hlay]
    exact complete_setLayout hInv.complete hcard rfl
  · rw [hg2l]
    intro kp hkp
    rcases mem_setLayout hkp with ⟨hmem, hne⟩ | rfl
    · rw [hlay] at hmem
      have hpc : kp.2.card ≠ card := by
        intro hh
        exact hne (by rw [hInv.keysEq kp hmem, hh])
      have hag1 : Agrees g1 kp.2 := htrans kp.2 hpc (hInv.agree kp hmem)
      unfold Agrees at hag1 ⊢
      cases hw : kp.2.where_ with
      | C => rw [hw] at hag1; exact hag1
      | O =>
        rw [hw] at hag1
        rw [hg2o]
        exact List.mem_append_left _ hag1
      | F => rw [hw] at hag1; exact hag1
    · show Agrees _ (⟨card, .O, 0, 0, 0⟩ : Position)
      unfold Agrees
      show card ∈ (do_move_open_cell g1 mv card).1.opn
      rw [hg2o]
      exact List.mem_append_right _ (List.mem_singleton_self card)

theorem inv_add_casc {g g1 : GameState} {card : Card} (mv : Str) {ci : Nat}
    (hInv : Inv g) (hrem : Removed g g1 card) (hcard : card ∈ deck52)
    (hci : ci < g1.cascades.length) :
    Inv (do_build_cascade g1 mv card ci).1 := by
  obtain ⟨hseed, hmoves, hlay, hclen, hfond, hcons, htrans⟩ := hrem
  have hg2c : (do_build_cascade g1 mv card ci).1.cascades =
      g1.cascades.set ci (g1.cascades.getD ci [] ++ [card]) := rfl
  have hg2l : (do_build_cascade g1 mv card ci).1.layout =
      setLayout g1.layout (repr_card card)
        ⟨card, .C, ci, (g1.cascades.getD ci [] ++ [card]).length - 1, 0⟩ := rfl
  have hmfc : mflat ((do_build_cascade g1 mv card ci).1.cascades) =
      mflat g1.cascades + {card} := by
    rw [hg2c]
    have h1 := mflat_set g1.cascades ci (g1.cascades.getD ci [] ++ [card]) hci
    have h2 : ((g1.cascades.getD ci [] ++ [card] : List Card) : Multiset Card) =
        (g1.cascades.getD ci [] : Multiset Card) + {card} := rfl
    rw [h2] at h1
    have h3 : mflat (g1.cascades.set ci (g1.cascades.getD ci [] ++ [card])) +
        (g1.cascades.getD ci [] : Multiset Card) =
        (mflat g1.cascades + {card}) + (g1.cascades.getD ci [] : Multiset Card) := by
      rw [h1]; abel
    exact add_right_cancel h3
  refine ⟨?_, ?_, ?_, ?_, ?_, ?_, ?_⟩
  · rw [hg2c, List.length_set, hclen, hInv.casc8]
  · show g1.fond.length = 4
    rw [hfond, hInv.fond4]
  · show mflat ((do_build_cascade g1 mv card ci).1.cascades) +
      (g1.opn : Multiset Card) + mflat g1.fond = _
    rw [hmfc]
    calc mflat g1.cascades + {card} + (g1.opn : Multiset Card) + mflat g1.fond
        = allCardsM g1 + {card} := by unfold allCardsM; abel
      _ = allCardsM g := hcons
      _ = _ := hInv.cons
  · rw [hg2l, hlay]
    exact keysEq_setLayout hInv.keysEq rfl
  · rw [hg2l, setLayout_map_fst, hlay]
    exact hInv.keysND
  · rw [hg2l, hlay]
    exact complete_setLayout hInv.complete hcard rfl
  · rw [hg2l]
    intro kp hkp
    rcases mem_setLayout hkp with ⟨hmem, hne⟩ | rfl
    · rw [hlay] at hmem
      have hpc : kp.2.card ≠ card := by
        intro hh
        exact hne (by rw [hInv.keysEq kp hmem, hh])
      have hag1 : Agrees g1 kp.2 := htrans kp.2 hpc (hInv.agree kp hmem)
      unfold Agrees at hag1 ⊢
      cases hw : kp.2.where_ with
      | C =>
        rw [hw] at hag1
        obtain ⟨hb, hm⟩ := hag1
        refine ⟨by rw [hg2c, List.length_set]; exact hb, ?_⟩
        rw [hg2c]
        by_cases hj : kp.2.index = ci
        · rw [hj, getD_set_eq _ _ _ _ hci]
          exact List.mem_append_left _ (by rw [← hj]; exact hm)
        · rw [getD_set_ne _ _ _ _ _ (fun hh => hj hh.symm)]
          exact hm
      | O => rw [hw] at hag1; exact hag1
      | F => rw [hw] at hag1; exact hag1
    · show Agrees _ (⟨card, .C, ci, (g1.cascades.getD ci [] ++ [card]).length - 1, 0⟩ :
        Position)
      unfold Agrees
      refine ⟨?_, ?_⟩
      · show ci < (do_build_cascade g1 mv card ci).1.cascades.length
        rw [hg2c, List.length_set]
        exact hci
      · show card ∈ (do_build_cascade g1 mv card ci).1.cascades.getD ci []
        rw [hg2c, getD_set_eq _ _ _ _ hci]
        exact List.mem_append_right _ (List.mem_singleton_self card)

theorem card_mem_deck52_of_lookup {g : GameState} (hInv : Inv g) {name : Str}
    {pos : Position} (hlk : g.layout.lookup name = some pos) : pos.card ∈ deck52 := by
  have hmem := lookup_mem hlk
  have hag := hInv.agree _ hmem
  unfold Agrees at hag
  have hin : pos.card ∈ allCardsM g := by
    unfold allCardsM
    cases hw : pos.where_ with
    | C =>
      rw [hw] at hag
      exact Multiset.mem_add.mpr (Or.inl (Multiset.mem_add.mpr
        (Or.inl (mem_mflat_of_getD hag.1 hag.2))))
    | O =>
      rw [hw] at hag
      exact Multiset.mem_add.mpr (Or.inl (Multiset.mem_add.mpr
        (Or.inr (by simpa using hag))))
    | F =>
      rw [hw] at hag
      exact Multiset.mem_add.mpr (Or.inr (mem_mflat_of_getD hag.2.1 hag.2.2))
  rw [hInv.cons] at hin
  simpa using hin

/-! ## Specifications of the three `try_*` operations -/

theorem play_fond_dispatch {g g' : GameState} {mv name : Str} {ms : List Msg}
    {pos : Position}
    (hInv : Inv g) (hlk : g.layout.lookup name = some pos) (hcard : pos.card ∈ deck52)
    (h : (match pos.where_ with
      | Where.C =>
        match g.cascades.get? pos.index with
        | none => (Except.error PyExc.indexError : TryRes)
        | some cc =>
          if cc.getLast? = some pos.card then
            Except.ok (do_play_fond (popCasc g pos.index) mv pos.card)
          else Except.ok (g, [Msg.cardNotPlayable])
      | Where.O =>
        if pos.card ∈ g.opn then
          Except.ok (do_play_fond { g with opn := g.opn.erase pos.card } mv pos.card)
        else Except.error PyExc.valueError
      | Where.F => Except.ok (g, [Msg.cardNotPlayable])) = .ok (g', ms)) :
    Inv g' ∧ (g' = g ∨ (g'.moves = g.moves ++ [mv] ∧ g'.seed = g.seed ∧
      ms = [.playFond] ∧
      g'.layout.lookup (repr_card pos.card) = some ⟨pos.card, .F, 0, 0, 0⟩)) := by
  cases hw : pos.where_ <;> rw [hw] at h <;> simp only [] at h
  case F =>
    simp only [Except.ok.injEq, Prod.mk.injEq] at h
    obtain ⟨rfl, rfl⟩ := h
    exact ⟨hInv, Or.inl rfl⟩
  case O =>
    by_cases hpm : pos.card ∈ g.opn
    · rw [if_pos hpm] at h
      simp only [Except.ok.injEq] at h
      have hrem := removed_erase hpm
      have hinv2 := inv_add_fond mv hInv hrem hcard
      obtain ⟨p0, hp0, _⟩ := hInv.complete pos.card hcard
      have hlk2 : (do_play_fond { g with opn := g.opn.erase pos.card } mv
          pos.card).1.layout.lookup (repr_card pos.card) =
          some ⟨pos.card, .F, 0, 0, 0⟩ := by
        show (setLayout g.layout (repr_card pos.card) _).lookup (repr_card pos.card) = _
        rw [lookup_setLayout, if_pos rfl, hp0]
        rfl
      have hg : g' = (do_play_fond { g with opn := g.opn.erase pos.card } mv
          pos.card).1 := by rw [h]
      have hms : ms = (do_play_fond { g with opn := g.opn.erase pos.card } mv
          pos.card).2 := by rw [h]
      subst hg
      subst hms
      exact ⟨hinv2, Or.inr ⟨rfl, rfl, rfl, hlk2⟩⟩
    · rw [if_neg hpm] at h
      simp at h
  case C =>
    cases hcs : g.cascades.get? pos.index with
    | none => rw [hcs] at h; simp at h
    | some cc =>
      rw [hcs] at h
      simp only [] at h
      by_cases hpk : cc.getLast? = some pos.card
      · rw [if_pos hpk] at h
        simp only [Except.ok.injEq] at h
        obtain ⟨hi, hgetD⟩ := get?_some_getD ([] : List Card) hcs
        have hrem := removed_pop hi hgetD hpk
        have hinv2 := inv_add_fond mv hInv hrem hcard
        obtain ⟨p0, hp0, _⟩ := hInv.complete pos.card hcard
        have hlk2 : (do_play_fond (popCasc g pos.index) mv
            pos.card).1.layout.lookup (repr_card pos.card) =
            some ⟨pos.card, .F, 0, 0, 0⟩ := by
          show (setLayout g.layout (repr_card pos.card) _).lookup (repr_card pos.card) = _
          rw [lookup_setLayout, if_pos rfl, hp0]
          rfl
        have hg : g' = (do_play_fond (popCasc g pos.index) mv pos.card).1 := by
          rw [h]
        have hms : ms = (do_play_fond (popCasc g pos.index) mv pos.card).2 := by
          rw [h]
        subst hg
        subst hms
        exact ⟨hinv2, Or.inr ⟨rfl, rfl, rfl, hlk2⟩⟩
      · rw [if_neg hpk] at h
        simp only [Except.ok.injEq, Prod.mk.injEq] at h
        obtain ⟨rfl, rfl⟩ := h
        exact ⟨hInv, Or.inl rfl⟩

theorem try_play_fond_spec {g g' : GameState} {mv name : Str} {ms : List Msg}
    (hInv : Inv g) (h : try_play_fond g mv name = .ok (g', ms)) :
    Inv g' ∧ (g' = g ∨ (g'.moves = g.moves ++ [mv] ∧ g'.seed = g.seed ∧
      ms = [.playFond] ∧ ∃ pos, g.layout.lookup name = some pos ∧
        g'.layout.lookup (repr_card pos.card) = some ⟨pos.card, .F, 0, 0, 0⟩)) := by
  unfold try_play_fond at h
  cases hlk : g.layout.lookup name with
  | none => rw [hlk] at h; simp at h
  | some pos =>
    rw [hlk] at h
    simp only [] at h
    cases hf : g.fond.get? pos.card.suit with
    | none => rw [hf] at h; simp at h
    | some f =>
      rw [hf] at h
      simp only [] at h
      have hcard : pos.card ∈ deck52 := card_mem_deck52_of_lookup hInv hlk
      have out : Inv g' ∧ (g' = g ∨ (g'.moves = g.moves ++ [mv] ∧ g'.seed = g.seed ∧
          ms = [.playFond] ∧
          g'.layout.lookup (repr_card pos.card) = some ⟨pos.card, .F, 0, 0, 0⟩)) := by
        by_cases hle : f.isEmpty = true ∧ pos.card.rank = 0
        · rw [if_pos hle] at h
          exact play_fond_dispatch hInv hlk hcard h
        · rw [if_neg hle] at h
          cases hgl : f.getLast? with
          | none => rw [hgl] at h; simp at h
          | some top =>
            rw [hgl] at h
            simp only [] at h
            cases hdec : decide ((top.rank : Int) = (pos.card.rank : Int) - 1) with
            | false =>
              rw [hdec] at h
              simp only [Except.ok.injEq, Prod.mk.injEq] at h
              obtain ⟨rfl, rfl⟩ := h
              exact ⟨hInv, Or.inl rfl⟩
            | true =>
              rw [hdec] at h
              exact play_fond_dispatch hInv hlk hcard h
      obtain ⟨h1, h2⟩ := out
      refine ⟨h1, ?_⟩
      rcases h2 with h2 | ⟨h2, h3, h4, h5⟩
      · exact Or.inl h2
      · exact Or.inr ⟨h2, h3, h4, ⟨pos, rfl, h5⟩⟩

theorem pyIdx_lt {len : Nat} {i : Int} {ci : Nat} (h : pyIdx len i = some ci) :
    ci < len := by
  unfold pyIdx at h
  by_cases h0 : 0 ≤ i
  · rw [if_pos h0] at h
    by_cases h1 : i.toNat < len
    · rw [if_pos h1] at h
      cases h
      exact h1
    · rw [if_neg h1] at h
      cases h
  · rw [if_neg h0] at h
    by_cases h2 : 0 ≤ i + (len : Int)
    · rw [if_pos h2] at h
      simp only [Option.some.injEq] at h
      subst h
      omega
    · rw [if_neg h2] at h
      cases h

theorem try_move_open_cell_spec {g g' : GameState} {mv name : Str} {ms : List Msg}
    (hInv : Inv g) (h : try_move_open_cell g mv name = .ok (g', ms)) :
    Inv g' ∧ (g' = g ∨ (g'.moves = g.moves ++ [mv] ∧ g'.seed = g.seed)) := by
  unfold try_move_open_cell at h
  cases hlk : g.layout.lookup name with
  | none => rw [hlk] at h; simp at h
  | some pos =>
    rw [hlk] at h
    simp only [] at h
    cases hcs : g.cascades.get? pos.index with
    | none => rw [hcs] at h; simp at h
    | some cc =>
      rw [hcs] at h
      simp only [] at h
      have hcard : pos.card ∈ deck52 := card_mem_deck52_of_lookup hInv hlk
      by_cases hlen : g.opn.length ≤ 4
      · rw [if_pos hlen] at h
        cases hw : pos.where_ <;> rw [hw] at h <;> simp only [] at h
        · simp only [Except.ok.injEq, Prod.mk.injEq] at h
          obtain ⟨rfl, rfl⟩ := h
          exact ⟨hInv, Or.inl rfl⟩
        · simp only [Except.ok.injEq, Prod.mk.injEq] at h
          obtain ⟨rfl, rfl⟩ := h
          exact ⟨hInv, Or.inl rfl⟩
        · by_cases hpk : cc.getLast? = some pos.card
          · rw [if_pos hpk] at h
            simp only [Except.ok.injEq] at h
            obtain ⟨hi, hgetD⟩ := get?_some_getD ([] : List Card) hcs
            have hrem := removed_pop hi hgetD hpk
            have hinv2 := inv_add_opn mv hInv hrem hcard
            have hg : g' = (do_move_open_cell (popCasc g pos.index) mv pos.card).1 := by
              rw [h]
            subst hg
            exact ⟨hinv2, Or.inr ⟨rfl, rfl⟩⟩
          · rw [if_neg hpk] at h
            simp only [Except.ok.injEq, Prod.mk.injEq] at h
            obtain ⟨rfl, rfl⟩ := h
            exact ⟨hInv, Or.inl rfl⟩
      · rw [if_neg hlen] at h
        simp only [Except.ok.injEq, Prod.mk.injEq] at h
        obtain ⟨rfl, rfl⟩ := h
        exact ⟨hInv, Or.inl rfl⟩

theorem try_build_cascade_spec {g g' : GameState} {mv name : Str} {destIdx : Int}
    {ms : List Msg}
    (hInv : Inv g) (h : try_build_cascade g mv name destIdx = .ok (g', ms)) :
    Inv g' ∧ (g' = g ∨ (g'.moves = g.moves ++ [mv] ∧ g'.seed = g.seed)) := by
  unfold try_build_cascade at h
  cases hlk : g.layout.lookup name with
  | none => rw [hlk] at h; simp at h
  | some pos =>
    rw [hlk] at h
    simp only [] at h
    cases hpy : pyIdx g.cascades.length destIdx with
    | none => rw [hpy] at h; simp at h
    | some ci =>
      rw [hpy] at h
      simp only [] at h
      have hcard : pos.card ∈ deck52 := card_mem_deck52_of_lookup hInv hlk
      have hci : ci < g.cascades.length := pyIdx_lt hpy
      by_cases hleg : (g.cascades.getD ci []).isEmpty = true ∨
          (match (g.cascades.getD ci []).getLast? with
            | some top => can_stack pos.card top
            | none => false) = true
      · have hleg2 : ((g.cascades.getD ci []).isEmpty ||
            (match (g.cascades.getD ci []).getLast? with
              | some top => can_stack pos.card top
              | none => false)) = true := by
          rcases hleg with h1 | h1
          · rw [h1, Bool.true_or]
          · rw [h1, Bool.or_true]
        rw [hleg2] at h
        simp only [if_true] at h
        cases hw : pos.where_ <;> rw [hw] at h <;> simp only [] at h
        · simp only [Except.ok.injEq, Prod.mk.injEq] at h
          obtain ⟨rfl, rfl⟩ := h
          exact ⟨hInv, Or.inl rfl⟩
        · by_cases hpm : pos.card ∈ g.opn
          · rw [if_pos hpm] at h
            simp only [Except.ok.injEq] at h
            have hrem := removed_erase hpm
            have hci1 : ci < ({ g with opn := g.opn.erase pos.card } :
                GameState).cascades.length := hci
            have hinv2 := inv_add_casc mv hInv hrem hcard hci1
            have hg : g' = (do_build_cascade { g with opn := g.opn.erase pos.card }
                mv pos.card ci).1 := by rw [h]
            subst hg
            exact ⟨hinv2, Or.inr ⟨rfl, rfl⟩⟩
          · rw [if_neg hpm] at h
            simp at h
        · cases hcs : g.cascades.get? pos.index with
          | none => rw [hcs] at h; simp at h
          | some csrc =>
            rw [hcs] at h
            simp only [] at h
            by_cases hpk : csrc.getLast? = some pos.card
            · rw [if_pos hpk] at h
              simp only [Except.ok.injEq] at h
              obtain ⟨hi, hgetD⟩ := get?_some_getD ([] : List Card) hcs
              have hrem := removed_pop hi hgetD hpk
              have hci1 : ci < (popCasc g pos.index).cascades.length := by
                rw [hrem.casc_len]
                exact hci
              have hinv2 := inv_add_casc mv hInv hrem hcard hci1
              have hg : g' = (do_build_cascade (popCasc g pos.index) mv
                  pos.card ci).1 := by rw [h]
              subst hg
              exact ⟨hinv2, Or.inr ⟨rfl, rfl⟩⟩
            · rw [if_neg hpk] at h
              simp only [Except.ok.injEq, Prod.mk.injEq] at h
              obtain ⟨rfl, rfl⟩ := h
              exact ⟨hInv, Or.inl rfl⟩
      · have hleg2 : ((g.cascades.getD ci []).isEmpty ||
            (match (g.cascades.getD ci []).getLast? with
              | some top => can_stack pos.card top
              | none => false)) = false := by
          have ha : (g.cascades.getD ci []).isEmpty = false := by
            cases hb1 : (g.cascades.getD ci []).isEmpty
            · rfl
            · exact absurd (Or.inl hb1) hleg
          have hb : (match (g.cascades.getD ci []).getLast? with
              | some top => can_stack pos.card top
              | none => false) = false := by
            cases hb2 : (match (g.cascades.getD ci []).getLast? with
              | some top => can_stack pos.card top
              | none => false)
            · rfl
            · exact absurd (Or.inr hb2) hleg
          rw [ha, hb]
          rfl
        rw [hleg2] at h
        simp only [if_false, Bool.false_eq_true] at h
        simp only [Except.ok.injEq, Prod.mk.injEq] at h
        obtain ⟨rfl, rfl⟩ := h
        exact ⟨hInv, Or.inl rfl⟩

theorem liftTry_ok {g g' : GameState} {ms : List Msg} {r : TryRes}
    (h : liftTry g r = .ok g' ms) :
    r = .ok (g', ms) ∨ (g' = g ∧ ms = [.garble]) := by
  cases r with
  | ok p =>
    obtain ⟨g2, ms2⟩ := p
    simp only [liftTry, Res.ok.injEq] at h
    exact Or.inl (by rw [h.1, h.2])
  | error e =>
    cases e <;> simp only [liftTry, Res.ok.injEq] at h
    · exact absurd h (by simp)
    · exact absurd h (by simp)
    · exact Or.inr ⟨h.1.symm, h.2.symm⟩
    · exact Or.inr ⟨h.1.symm, h.2.symm⟩

/-- What a card-move command can do: it preserves the invariant, and either
leaves the state entirely unchanged (a rejected move) or appends exactly
its own rendered text to the move log (an accepted move). -/
theorem moveStep_spec {g g' : GameState} {n : Str} {d : MDest} {ms : List Msg}
    (hInv : Inv g) (h : moveStep g n d = .ok g' ms) :
    Inv g' ∧ (g' = g ∨ (g'.moves = g.moves ++ [renderCmd n d] ∧ g'.seed = g.seed)) := by
  unfold moveStep at h
  by_cases hlk : (g.layout.lookup n).isNone
  · rw [if_pos hlk] at h
    simp only [Res.ok.injEq] at h
    obtain ⟨rfl, rfl⟩ := h
    exact ⟨hInv, Or.inl rfl⟩
  · rw [if_neg hlk] at h
    cases d with
    | toFond =>
      rcases liftTry_ok h with htr | ⟨rfl, rfl⟩
      · obtain ⟨h1, h2⟩ := try_play_fond_spec hInv htr
        refine ⟨h1, ?_⟩
        rcases h2 with h2 | ⟨h2, h3, _, _⟩
        · exact Or.inl h2
        · exact Or.inr ⟨h2, h3⟩
      · exact ⟨hInv, Or.inl rfl⟩
    | toOpn =>
      rcases liftTry_ok h with htr | ⟨rfl, rfl⟩
      · obtain ⟨h1, h2⟩ := try_move_open_cell_spec hInv htr
        exact ⟨h1, h2⟩
      · exact ⟨hInv, Or.inl rfl⟩
    | toCasc i =>
      simp only [] at h
      cases hpi : pyInt (intRepr i) with
      | none => rw [hpi] at h; simp at h
      | some m =>
        rw [hpi] at h
        simp only [] at h
        rcases liftTry_ok h with htr | ⟨rfl, rfl⟩
        · obtain ⟨h1, h2⟩ := try_build_cascade_spec hInv htr
          exact ⟨h1, h2⟩
        · exact ⟨hInv, Or.inl rfl⟩

/-! ## The deal establishes the invariant -/

theorem mset_set {α : Type} (l : List α) (i : Nat) (a d : α) (h : i < l.length) :
    ((l.set i a : List α) : Multiset α) + {l.getD i d} = (l : Multiset α) + {a} := by
  induction l generalizing i with
  | nil => simp at h
  | cons x xs ih =>
    cases i with
    | zero =>
      show ((a :: xs : List α) : Multiset α) + {x} = _
      rw [← Multiset.cons_coe, ← Multiset.cons_coe, ← Multiset.singleton_add,
        ← Multiset.singleton_add]
      abel
    | succ i =>
      show ((x :: xs.set i a : List α) : Multiset α) + {xs.getD i d} = _
      rw [← Multiset.cons_coe, ← Multiset.cons_coe, ← Multiset.singleton_add,
        ← Multiset.singleton_add, add_assoc, add_assoc,
        ih i (by simpa using h)]

theorem mset_swap (l : List Nat) (i j : Nat) (hi : i < l.length)
    (hj : j < l.length) :
    (((l.set i (l.getD j 0)).set j (l.getD i 0) : List Nat) : Multiset Nat) =
      (l : Multiset Nat) := by
  have h1 := mset_set l i (l.getD j 0) 0 hi
  have hlen : (l.set i (l.getD j 0)).length = l.length := by simp
  have h2 := mset_set (l.set i (l.getD j 0)) j (l.getD i 0) 0 (by rw [hlen]; exact hj)
  have hgj : (l.set i (l.getD j 0)).getD j 0 = l.getD j 0 := by
    by_cases hij : i = j
    · subst hij
      exact getD_set_eq _ _ _ _ hi
    · exact getD_set_ne _ _ _ _ _ hij
  rw [hgj] at h2
  have h3 : (((l.set i (l.getD j 0)).set j (l.getD i 0) : List Nat) : Multiset Nat) +
      {l.getD j 0} = (l : Multiset Nat) + {l.getD j 0} := by
    rw [h2, h1]
  exact add_right_cancel h3

theorem shuffleFold_mset : ∀ (idxs : List Nat) (ds : List Nat) (st : Nat),
    ds.length = 52 → (∀ i ∈ idxs, i < 52) →
    ((idxs.foldl shuffleStep (ds, st)).1 : Multiset Nat) = (ds : Multiset Nat) ∧
    (idxs.foldl shuffleStep (ds, st)).1.length = 52 := by
  intro idxs
  induction idxs with
  | nil => intro ds st h _; exact ⟨rfl, h⟩
  | cons i rest ih =>
    intro ds st h hidx
    rw [List.foldl_cons]
    have hilt : i < 52 := hidx i (List.mem_cons_self _ _)
    have hstep : shuffleStep (ds, st) i =
        ((ds.set i (ds.getD (51 - lcgNext st / 65536 % (52 - i)) 0)).set
          (51 - lcgNext st / 65536 % (52 - i)) (ds.getD i 0), lcgNext st) := rfl
    have hj : 51 - lcgNext st / 65536 % (52 - i) < 52 := by omega
    have hperm := mset_swap ds i (51 - lcgNext st / 65536 % (52 - i))
      (by rw [h]; exact hilt) (by rw [h]; exact hj)
    have hlen2 : ((ds.set i (ds.getD (51 - lcgNext st / 65536 % (52 - i)) 0)).set
        (51 - lcgNext st / 65536 % (52 - i)) (ds.getD i 0)).length = 52 := by
      simp [h]
    obtain ⟨ih1, ih2⟩ := ih _ (lcgNext st) hlen2
      (fun a ha => hidx a (List.mem_cons_of_mem _ ha))
    rw [hstep]
    exact ⟨by rw [ih1, hperm], ih2⟩

theorem shuffle_mset (seed : Int) :
    ((shuffle seed : List Nat) : Multiset Nat) = ((List.range 52 : List Nat) : Multiset Nat) := by
  unfold shuffle
  obtain ⟨h1, _⟩ := shuffleFold_mset (List.range 52) (List.range 52).reverse
    (seedInit seed) (by simp) (fun i hi => List.mem_range.mp hi)
  rw [h1, Multiset.coe_eq_coe]
  exact List.reverse_perm _

theorem dealtCards_mset (seed : Int) :
    ((dealtCards seed : List Card) : Multiset Card) = (deck52 : Multiset Card) := by
  unfold dealtCards deck52
  rw [← Multiset.map_coe, ← Multiset.map_coe, shuffle_mset]

theorem dealtCards_perm (seed : Int) : (dealtCards seed).Perm deck52 :=
  Multiset.coe_eq_coe.mp (dealtCards_mset seed)

theorem dealLoop_master : ∀ (cards : List Card) (i : Nat) (cs : List (List Card))
    (lay : List (Str × Position)), cs.length = 8 →
    (∀ kp ∈ lay, kp.1 = repr_card kp.2.card ∧ kp.2.where_ = Where.C ∧
      kp.2.index < 8 ∧ kp.2.card ∈ cs.getD kp.2.index []) →
    (dealLoop cards i cs lay).1.length = 8 ∧
    mflat (dealLoop cards i cs lay).1 = mflat cs + (cards : Multiset Card) ∧
    (dealLoop cards i cs lay).2.map Prod.fst =
      lay.map Prod.fst ++ cards.map repr_card ∧
    (∀ kp ∈ (dealLoop cards i cs lay).2, kp.1 = repr_card kp.2.card ∧
      kp.2.where_ = Where.C ∧ kp.2.index < 8 ∧
      kp.2.card ∈ (dealLoop cards i cs lay).1.getD kp.2.index []) := by
  intro cards
  induction cards with
  | nil =>
    intro i cs lay hcs hlay
    refine ⟨hcs, by simp [dealLoop], by simp [dealLoop], ?_⟩
    intro kp hkp
    exact hlay kp hkp
  | cons card rest ih =>
    intro i cs lay hcs hlay
    have hs : i % 8 < 8 := Nat.mod_lt _ (by omega)
    have hslen : i % 8 < cs.length := by rw [hcs]; exact hs
    have hcs' : (cs.set (i % 8) (cs.getD (i % 8) [] ++ [card])).length = 8 := by
      rw [List.length_set]; exact hcs
    have hlay' : ∀ kp ∈ lay ++ [(repr_card card,
        (⟨card, Where.C, i % 8, (cs.getD (i % 8) [] ++ [card]).length - 1, 0⟩ :
          Position))],
        kp.1 = repr_card kp.2.card ∧ kp.2.where_ = Where.C ∧ kp.2.index < 8 ∧
        kp.2.card ∈ (cs.set (i % 8) (cs.getD (i % 8) [] ++ [card])).getD
          kp.2.index [] := by
      intro kp hkp
      rcases List.mem_append.mp hkp with hm | hm
      · obtain ⟨hk1, hk2, hk3, hk4⟩ := hlay kp hm
        refine ⟨hk1, hk2, hk3, ?_⟩
        by_cases he : kp.2.index = i % 8
        · rw [he, getD_set_eq _ _ _ _ hslen]
          exact List.mem_append_left _ (by rw [← he]; exact hk4)
        · rw [getD_set_ne _ _ _ _ _ (fun hh => he hh.symm)]
          exact hk4
      · simp only [List.mem_singleton] at hm
        subst hm
        refine ⟨rfl, rfl, hs, ?_⟩
        show card ∈ (cs.set (i % 8) (cs.getD (i % 8) [] ++ [card])).getD (i % 8) []
        rw [getD_set_eq _ _ _ _ hslen]
        exact List.mem_append_right _ (List.mem_singleton_self card)
    obtain ⟨ih1, ih2, ih3, ih4⟩ := ih (i + 1) _ _ hcs' hlay'
    have hmf : mflat (cs.set (i % 8) (cs.getD (i % 8) [] ++ [card])) =
        mflat cs + {card} := by
      have h1 := mflat_set cs (i % 8) (cs.getD (i % 8) [] ++ [card]) hslen
      have h2 : ((cs.getD (i % 8) [] ++ [card] : List Card) : Multiset Card) =
          (cs.getD (i % 8) [] : Multiset Card) + {card} := rfl
      rw [h2] at h1
      have h3 : mflat (cs.set (i % 8) (cs.getD (i % 8) [] ++ [card])) +
          (cs.getD (i % 8) [] : Multiset Card) =
          (mflat cs + {card}) + (cs.getD (i % 8) [] : Multiset Card) := by
        rw [h1]; abel
      exact add_right_cancel h3
    refine ⟨ih1, ?_, ?_, ih4⟩
    · show mflat (dealLoop rest (i + 1) _ _).1 = _
      rw [ih2, hmf]
      have hc : ((card :: rest : List Card) : Multiset Card) =
          {card} + (rest : Multiset Card) := by
        rw [← Multiset.cons_coe, ← Multiset.singleton_add]
      rw [hc]
      abel
    · show (dealLoop rest (i + 1) _ _).2.map Prod.fst = _
      rw [ih3, List.map_append]
      simp

theorem lookup_of_mem_keys_nodup {lay : List (Str × Position)}
    (hnd : (lay.map Prod.fst).Nodup) {k : Str} {v : Position}
    (hm : (k, v) ∈ lay) : lay.lookup k = some v := by
  induction lay with
  | nil => simp at hm
  | cons kp rest ih =>
    rw [List.map_cons, List.nodup_cons] at hnd
    rcases List.mem_cons.mp hm with heq | hm2
    · rw [← heq]
      rw [List.lookup]
      have hb : (k == k) = true := by simp
      rw [hb]
    · have hk : k ≠ kp.1 := by
        intro hh
        exact hnd.1 (hh ▸ (List.mem_map.mpr ⟨(k, v), hm2, rfl⟩))
      rw [List.lookup]
      have hb : (k == kp.1) = false := by simpa [beq_iff_eq] using hk
      rw [hb]
      exact ih hnd.2 hm2

/-- Unfolding of `reset` into its components. -/
theorem reset_eq (seed : Int) : reset seed =
    { seed := seed
      moves := []
      opn := []
      fond := List.replicate 4 []
      cascades := (dealLoop (dealtCards seed) 0 (List.replicate 8 []) []).1
      layout := (dealLoop (dealtCards seed) 0 (List.replicate 8 []) []).2 } := rfl

/-- The dealt state satisfies the invariant, for any 52-card permutation. -/
theorem inv_deal (sd : Int) (cards : List Card)
    (hmset : ((cards : List Card) : Multiset Card) = (deck52 : Multiset Card)) :
    Inv ({ seed := sd
           moves := []
           opn := []
           fond := List.replicate 4 []
           cascades := (dealLoop cards 0 (List.replicate 8 []) []).1
           layout := (dealLoop cards 0 (List.replicate 8 []) []).2 } : GameState) := by
  have hperm : cards.Perm deck52 := Multiset.coe_eq_coe.mp hmset
  obtain ⟨h1, h2, h3, h4⟩ := dealLoop_master cards 0 (List.replicate 8 []) []
    (by simp) (by simp)
  have hmrep : mflat (List.replicate 8 ([] : List Card)) = 0 := rfl
  have hmrep4 : mflat (List.replicate 4 ([] : List Card)) = 0 := rfl
  have hmfl : mflat (dealLoop cards 0 (List.replicate 8 []) []).1 =
      (deck52 : Multiset Card) := by
    rw [h2, hmrep, zero_add, hmset]
  have hkeys : (dealLoop cards 0 (List.replicate 8 []) []).2.map Prod.fst =
      cards.map repr_card := by
    rw [h3, List.map_nil, List.nil_append]
  have hcharc : ∀ kp ∈ (dealLoop cards 0 (List.replicate 8 []) []).2,
      kp.2.card ∈ deck52 := by
    intro kp hkp
    obtain ⟨_, _, hk3, hk4⟩ := h4 kp hkp
    have hmm : kp.2.card ∈ mflat (dealLoop cards 0 (List.replicate 8 []) []).1 :=
      mem_mflat_of_getD (by rw [h1]; exact hk3) hk4
    rw [hmfl] at hmm
    simpa using hmm
  have hnd : ((dealLoop cards 0 (List.replicate 8 []) []).2.map Prod.fst).Nodup := by
    rw [hkeys]
    refine List.Nodup.map_on ?_ (hperm.nodup_iff.mpr deck52_nodup)
    intro x hx y hy hxy
    exact repr_card_inj x (hperm.mem_iff.mp hx) y (hperm.mem_iff.mp hy) hxy
  refine ⟨h1, by simp, ?_, ?_, hnd, ?_, ?_⟩
  · show mflat (dealLoop cards 0 (List.replicate 8 []) []).1 +
      (([] : List Card) : Multiset Card) + mflat (List.replicate 4 []) = _
    rw [hmfl, hmrep4]
    simp
  · intro kp hkp
    exact (h4 kp hkp).1
  · intro c hc
    have hcc : c ∈ cards := hperm.mem_iff.mpr hc
    have hkc : repr_card c ∈ (dealLoop cards 0 (List.replicate 8 []) []).2.map
        Prod.fst := by
      rw [hkeys]
      exact List.mem_map_of_mem _ hcc
    obtain ⟨kp, hkp, hfst⟩ := List.mem_map.mp hkc
    have hcard : kp.2.card = c := by
      have he : repr_card kp.2.card = repr_card c := by
        rw [← (h4 kp hkp).1, hfst]
      exact repr_card_inj _ (hcharc kp hkp) _ hc he
    refine ⟨kp.2, ?_, hcard⟩
    have hm2 : (repr_card c, kp.2) ∈ (dealLoop cards 0 (List.replicate 8 []) []).2 := by
      have hkpe : kp = (repr_card c, kp.2) := by
        rw [← hfst]
      rw [← hkpe]
      exact hkp
    exact lookup_of_mem_keys_nodup hnd hm2
  · intro kp hkp
    obtain ⟨_, hk2, hk3, hk4⟩ := h4 kp hkp
    unfold Agrees
    rw [hk2]
    exact ⟨by rw [h1]; exact hk3, hk4⟩

/-- `reset` establishes the master invariant, for every integer seed. -/
theorem inv_reset (seed : Int) : Inv (reset seed) := by
  rw [reset_eq]
  exact inv_deal seed (dealtCards seed) (dealtCards_mset seed)

/-- Every reachable state satisfies the master invariant. -/
theorem reach_inv {g : GameState} (h : Reach g) : Inv g := by
  induction h with
  | init seed => exact inv_reset seed
  | step n d f hr hn hstep ih =>
    rw [oneLine_moveCmd f _ n d _ hn (tok_render n d hn)] at hstep
    exact (moveStep_spec ih hstep).1

/-! ## Undo restores the previous state: replay reconstruction -/

theorem mem_joinWith {sep : Str} {ts : List Str} {c : Char}
    (h : c ∈ joinWith sep ts) : c ∈ sep ∨ ∃ t ∈ ts, c ∈ t := by
  induction ts with
  | nil => simp [joinWith] at h
  | cons t ts ih =>
    cases ts with
    | nil =>
      exact Or.inr ⟨t, List.mem_cons_self _ _, h⟩
    | cons t2 ts2 =>
      have hj : joinWith sep (t :: t2 :: ts2) = t ++ sep ++ joinWith sep (t2 :: ts2) :=
        rfl
      rw [hj] at h
      rcases List.mem_append.mp h with h1 | h1
      · rcases List.mem_append.mp h1 with h2 | h2
        · exact Or.inr ⟨t, List.mem_cons_self _ _, h2⟩
        · exact Or.inl h2
      · rcases ih h1 with h2 | ⟨u, hu, hcu⟩
        · exact Or.inl h2
        · exact Or.inr ⟨u, List.mem_cons_of_mem _ hu, hcu⟩

theorem renderCmd_no_semi {n : Str} (d : MDest) (hn : n ∈ keys52) :
    ';' ∉ renderCmd n d := by
  intro hmem
  rcases mem_joinWith hmem with h | ⟨t, ht, hct⟩
  · simp at h
  · rcases List.mem_cons.mp ht with rfl | ht2
    · exact (keys52_clean _ hn).2.2.1 hct
    · cases d with
      | toFond => simp [destToks] at ht2; subst ht2; simp at hct
      | toOpn => simp [destToks] at ht2; subst ht2; simp at hct
      | toCasc i =>
        simp [destToks] at ht2
        rcases ht2 with rfl | rfl
        · simp at hct
        · exact (intRepr_clean i ';' hct).2.2.1 rfl

theorem oneLine_tokens_eq (f : Nat) (g : GameState) (r1 r2 : Str)
    (h : tokenize r1 = tokenize r2) : oneLine (f + 1) g r1 = oneLine (f + 1) g r2 := by
  simp only [oneLine, h]

theorem oneLine_undo (f : Nat) (g : GameState) :
    oneLine (f + 1) g (String.toList "UNDO") =
      replayListF (oneLine f) (reset g.seed)
        (splitOnChar ';' (joinWith [';', ' '] g.moves.dropLast)) := by
  have ht : tokenize (String.toList "UNDO") = [UNDO_W] := by decide
  have h1 : (UNDO_W : Str).isPrefixOf QUIT_W = false := by decide
  have h2 : (UNDO_W : Str).isPrefixOf REPLAY_W = false := by decide
  have h3 : (UNDO_W : Str).isPrefixOf UNDO_W = true := by decide
  simp only [oneLine, ht, List.headD_cons, h1, h2, h3, Bool.false_eq_true,
    if_false, if_true]

theorem replayListF_append_ok {ol : GameState → Str → Res} {g g1 : GameState}
    {ps : List Str} {m1 : List Msg} (qs : List Str)
    (h : replayListF ol g ps = .ok g1 m1) :
    replayListF ol g (ps ++ qs) =
      (match replayListF ol g1 qs with
       | .ok g2 m2 => .ok g2 (m1 ++ m2)
       | .quit m2 => .quit (m1 ++ m2)
       | .exc e m2 => .exc e (m1 ++ m2)
       | .noFuel => .noFuel) := by
  induction ps generalizing g g1 m1 with
  | nil =>
    simp only [replayListF, Res.ok.injEq] at h
    obtain ⟨rfl, rfl⟩ := h
    rw [List.nil_append]
    cases replayListF ol g qs <;> simp
  | cons p ps ih =>
    rw [List.cons_append]
    show (match ol g p with
      | .ok g' ms =>
        (match replayListF ol g' (ps ++ qs) with
         | .ok g2 ms2 => Res.ok g2 (ms ++ ms2)
         | .quit ms2 => Res.quit (ms ++ ms2)
         | .exc e ms2 => Res.exc e (ms ++ ms2)
         | .noFuel => Res.noFuel)
      | r => r) = _
    rw [show replayListF ol g (p :: ps) = (match ol g p with
      | .ok g' ms =>
        (match replayListF ol g' ps with
         | .ok g2 ms2 => Res.ok g2 (ms ++ ms2)
         | .quit ms2 => Res.quit (ms ++ ms2)
         | .exc e ms2 => Res.exc e (ms ++ ms2)
         | .noFuel => Res.noFuel)
      | r => r) from rfl] at h
    cases hol : ol g p with
    | ok gA mA =>
      rw [hol] at h
      simp only [] at h
      cases hrest : replayListF ol gA ps with
      | ok gB mB =>
        rw [hrest] at h
        simp only [Res.ok.injEq] at h
        obtain ⟨rfl, rfl⟩ := h
        simp only []
        rw [ih hrest]
        cases replayListF ol gB qs <;> simp
      | quit m2 => rw [hrest] at h; simp at h
      | exc e m2 => rw [hrest] at h; simp at h
      | noFuel => rw [hrest] at h; simp at h
    | quit m2 => rw [hol] at h; simp at h
    | exc e m2 => rw [hol] at h; simp at h
    | noFuel => rw [hol] at h; simp at h

theorem reset_seed_eq (seed : Int) : (reset seed).seed = seed := rfl

theorem replayListF_single {ol : GameState → Str → Res} {g g' : GameState}
    {ms : List Msg} {p : Str} (h : ol g p = .ok g' ms) :
    replayListF ol g [p] = .ok g' (ms ++ []) := by
  simp only [replayListF, h]

theorem reach_replays {g : GameState} (h : Reach g) :
    Replays g ∧ (∀ m ∈ g.moves, ';' ∉ m) := by
  induction h with
  | init seed =>
    refine ⟨Or.inl ⟨rfl, ?_⟩, by simp [reset]⟩
    rw [reset_seed_eq]
  | @step g0 g1 ms0 n d f hr hn hstep ih =>
    obtain ⟨hrep, hclean⟩ := ih
    rw [oneLine_moveCmd f _ n d _ hn (tok_render n d hn)] at hstep
    obtain ⟨_, hcase⟩ := moveStep_spec (reach_inv hr) hstep
    rcases hcase with rfl | ⟨hmv, hseed⟩
    · exact ⟨hrep, hclean⟩
    · have hrc : ';' ∉ renderCmd n d := renderCmd_no_semi d hn
      have hcleanNew : ∀ m ∈ g1.moves, ';' ∉ m := by
        rw [hmv]
        intro m hm
        rcases List.mem_append.mp hm with hm1 | hm1
        · exact hclean m hm1
        · simp only [List.mem_singleton] at hm1
          subst hm1
          exact hrc
      refine ⟨?_, hcleanNew⟩
      right
      refine ⟨by rw [hmv]; simp, ?_⟩
      intro fl
      have hol : oneLine (fl + 1) g0 (renderCmd n d) = .ok g1 ms0 := by
        rw [oneLine_moveCmd fl _ n d _ hn (tok_render n d hn)]
        exact hstep
      cases hg0m : g0.moves with
      | nil =>
        rcases hrep with ⟨_, hge⟩ | ⟨hne, _⟩
        · have hpieces : splitOnChar ';' (joinWith [';', ' '] g1.moves) =
              [renderCmd n d] := by
            rw [hmv, hg0m, List.nil_append]
            show splitOnChar ';' (renderCmd n d) = [renderCmd n d]
            exact splitOnChar_of_not_mem _ _ hrc
          rw [hseed, ← hge, hpieces]
          exact ⟨ms0 ++ [], replayListF_single hol⟩
        · exact absurd hg0m hne
      | cons m0 mrest =>
        rcases hrep with ⟨hme, _⟩ | ⟨_, hR⟩
        · rw [hg0m] at hme
          cases hme
        · have holdp : splitOnChar ';' (joinWith [';', ' '] g0.moves) =
              m0 :: mrest.map (fun t => ' ' :: t) := by
            rw [hg0m]
            exact split_joinSemi m0 mrest (by rw [← hg0m]; exact hclean)
          have hcl : ∀ t ∈ m0 :: (mrest ++ [renderCmd n d]), ';' ∉ t := by
            intro t ht
            rcases List.mem_cons.mp ht with rfl | ht2
            · exact hclean t (by rw [hg0m]; exact List.mem_cons_self _ _)
            · rcases List.mem_append.mp ht2 with h3 | h3
              · exact hclean t (by rw [hg0m]; exact List.mem_cons_of_mem _ h3)
              · simp only [List.mem_singleton] at h3
                subst h3
                exact hrc
          have hnewp : splitOnChar ';' (joinWith [';', ' '] g1.moves) =
              (m0 :: mrest.map (fun t => ' ' :: t)) ++ [' ' :: renderCmd n d] := by
            rw [hmv, hg0m]
            have hshift : (m0 :: mrest) ++ [renderCmd n d] =
                m0 :: (mrest ++ [renderCmd n d]) := rfl
            rw [hshift, split_joinSemi m0 (mrest ++ [renderCmd n d]) hcl,
              List.map_append]
            simp
          obtain ⟨msgs, hRfl⟩ := hR fl
          rw [holdp] at hRfl
          rw [hseed, hnewp, replayListF_append_ok _ hRfl]
          have hol2 : oneLine (fl + 1) g0 (' ' :: renderCmd n d) = .ok g1 ms0 := by
            rw [oneLine_tokens_eq fl g0 _ _ (tokenize_cons_space _)]
            exact hol
          rw [replayListF_single hol2]
          exact ⟨msgs ++ (ms0 ++ []), rfl⟩

/-- Applying an accepted card move and then UNDO exactly restores the
previous state, provided the move log was nonempty before the move. -/
theorem undo_restores {g g1 : GameState} {n : Str} {d : MDest} {ms : List Msg}
    {f : Nat}
    (hr : Reach g) (hn : n ∈ keys52)
    (hacc : oneLine (f + 1) g (renderCmd n d) = .ok g1 ms)
    (hgrew : g1.moves.length = g.moves.length + 1)
    (hprev : g.moves ≠ []) (k : Nat) :
    ∃ ms2, oneLine (k + 2) g1 (String.toList "UNDO") = .ok g ms2 := by
  rw [oneLine_moveCmd f g n d _ hn (tok_render n d hn)] at hacc
  obtain ⟨_, hcase⟩ := moveStep_spec (reach_inv hr) hacc
  rcases hcase with rfl | ⟨hmv, hseed⟩
  · omega
  · rw [oneLine_undo (k + 1) g1, hseed, hmv, List.dropLast_concat]
    obtain ⟨hrep, _⟩ := reach_replays hr
    rcases hrep with ⟨hme, _⟩ | ⟨_, hR⟩
    · exact absurd hme hprev
    · exact hR k

/-! ## The win detector -/

theorem cascadePass_iff : ∀ (l : List Card) (last : Int),
    cascadePass last l = true ↔
      ((∀ c, l.head? = some c → (c.rank : Int) ≤ last) ∧ NonIncr l) := by
  intro l
  induction l with
  | nil =>
    intro last
    simp [cascadePass, NonIncr]
  | cons c rest ih =>
    intro last
    rw [show cascadePass last (c :: rest) =
      ((decide (0 ≤ last - (c.rank : Int))) && cascadePass (c.rank : Int) rest)
      from rfl]
    rw [Bool.and_eq_true, ih ((c.rank : Int))]
    unfold NonIncr
    rw [List.chain'_cons']
    constructor
    · rintro ⟨h1, h2, h3⟩
      have h1' : (c.rank : Int) ≤ last := by
        have := of_decide_eq_true h1
        omega
      refine ⟨?_, ?_, h3⟩
      · intro c' hc'
        simp only [List.head?_cons, Option.some.injEq] at hc'
        subst hc'
        exact h1'
      · intro b hb
        have := h2 b hb
        exact_mod_cast this
    · rintro ⟨h1, h2, h3⟩
      have h1' : (c.rank : Int) ≤ last := h1 c rfl
      refine ⟨by simpa using (by omega : (0 : Int) ≤ last - (c.rank : Int)), ?_, h3⟩
      intro b hb
      exact_mod_cast h2 b hb

theorem test_win_iff (g : GameState)
    (hv : ∀ s ∈ g.cascades, ∀ c ∈ s, c.rank ≤ 12) :
    test_win g = true ↔ ∀ s ∈ g.cascades, NonIncr s := by
  unfold test_win
  rw [List.all_eq_true]
  constructor
  · intro h s hs
    exact ((cascadePass_iff s 12).mp (h s hs)).2
  · intro h s hs
    refine (cascadePass_iff s 12).mpr ⟨?_, h s hs⟩
    intro c hc
    have : c ∈ s := by
      cases s with
      | nil => simp at hc
      | cons a l =>
        simp only [List.head?_cons, Option.some.injEq] at hc
        subst hc
        exact List.mem_cons_self _ _
    exact_mod_cast hv s hs c this

theorem cascadeTrace_all_eq : ∀ (l : List Card) (last : Int),
    (cascadeTrace last l).all (fun p => decide (0 ≤ p.2)) = cascadePass last l := by
  intro l
  induction l with
  | nil => intro last; rfl
  | cons c rest ih =>
    intro last
    show ((decide (0 ≤ last - (c.rank : Int))) &&
      (cascadeTrace (c.rank : Int) rest).all (fun p => decide (0 ≤ p.2))) = _
    rw [ih ((c.rank : Int))]
    rfl

theorem test_win_trace_fst (g : GameState) : (test_win_trace g).1 = test_win g := by
  unfold test_win_trace test_win
  show g.cascades.all (fun s => (cascadeTrace 12 s).all (fun p => decide (0 ≤ p.2))) = _
  congr 1
  funext s
  exact cascadeTrace_all_eq s 12

/-! ## The deal agrees with the spec's description -/

theorem shuffleFold_spec (seed : Int) : ∀ n : Nat,
    (List.range n).foldl shuffleStep ((List.range 52).reverse, seedInit seed) =
      (specShuffleTo seed n, specState seed n) := by
  intro n
  induction n with
  | zero => rfl
  | succ n ih =>
    nth_rewrite 2 [List.range_succ]
    rw [List.foldl_append, ih]
    simp only [List.foldl_cons, List.foldl_nil]
    rfl

theorem shuffle_eq_spec (seed : Int) : shuffle seed = specShuffleTo seed 52 := by
  show ((List.range 52).foldl shuffleStep ((List.range 52).reverse, seedInit seed)).1 = _
  rw [shuffleFold_spec seed 52]

theorem dealtCards_eq_specCards (seed : Int) : dealtCards seed = specCards seed := by
  unfold dealtCards specCards
  rw [shuffle_eq_spec]

theorem get?_of_lt_getD {α : Type} : ∀ (l : List α) (i : Nat) (d : α),
    i < l.length → l.get? i = some (l.getD i d)
  | [], _, _, h => absurd h (by simp)
  | _ :: _, 0, _, _ => rfl
  | _ :: xs, i + 1, d, h => get?_of_lt_getD xs i d (by simpa using h)

theorem getD_replicate_self {α : Type} (a : α) : ∀ (n k : Nat),
    (List.replicate n a).getD k a = a
  | 0, _ => by simp
  | _ + 1, 0 => rfl
  | n + 1, k + 1 => getD_replicate_self a n k

theorem dealLoop_cascades_getD : ∀ (cards : List Card) (i : Nat)
    (cs : List (List Card)) (lay : List (Str × Position)) (k : Nat),
    k < 8 → cs.length = 8 →
    (dealLoop cards i cs lay).1.getD k [] =
      cs.getD k [] ++
        ((List.enumFrom i cards).filter (fun p => p.1 % 8 = k)).map Prod.snd := by
  intro cards
  induction cards with
  | nil =>
    intro i cs lay k hk hcs
    simp [dealLoop, List.enumFrom]
  | cons card rest ih =>
    intro i cs lay k hk hcs
    have hslen : i % 8 < cs.length := by
      rw [hcs]; exact Nat.mod_lt _ (by omega)
    show (dealLoop rest (i + 1)
      (cs.set (i % 8) (cs.getD (i % 8) [] ++ [card])) _).1.getD k [] = _
    rw [ih (i + 1) _ _ k hk (by rw [List.length_set]; exact hcs)]
    rw [show List.enumFrom i (card :: rest) =
      (i, card) :: List.enumFrom (i + 1) rest from rfl]
    rw [List.filter_cons]
    by_cases he : i % 8 = k
    · rw [if_pos (by simpa using he), ← he,
        getD_set_eq _ _ _ _ hslen, List.map_cons, List.append_assoc]
      rfl
    · rw [if_neg (by simpa using he), getD_set_ne _ _ _ _ _ he]

theorem enum_eq_enumFrom_zero {α : Type} (l : List α) :
    List.enum l = List.enumFrom 0 l := rfl

theorem deal_cascades_gen (sd : Int) (cards : List Card) :
    ({ seed := sd
       moves := []
       opn := []
       fond := List.replicate 4 []
       cascades := (dealLoop cards 0 (List.replicate 8 []) []).1
       layout := (dealLoop cards 0 (List.replicate 8 []) []).2 } :
      GameState).cascades =
    (List.range 8).map (fun k =>
      ((cards.enum.filter (fun p => p.1 % 8 = k)).map Prod.snd)) := by
  show (dealLoop cards 0 (List.replicate 8 []) []).1 = _
  have hlen : (dealLoop cards 0 (List.replicate 8 []) []).1.length = 8 :=
    (dealLoop_master cards 0 _ [] (by simp) (by simp)).1
  apply List.ext
  intro k
  by_cases hk : k < 8
  · rw [get?_of_lt_getD _ k [] (by rw [hlen]; exact hk)]
    have hrhs : ((List.range 8).map (fun j =>
        ((cards.enum.filter (fun p => p.1 % 8 = j)).map Prod.snd))).get? k =
        some ((cards.enum.filter (fun p => p.1 % 8 = k)).map Prod.snd) := by
      rw [List.get?_map, List.get?_range hk]
      rfl
    rw [hrhs]
    congr 1
    rw [dealLoop_cascades_getD cards 0 _ _ k hk (by simp),
      getD_replicate_self _ 8 k, List.nil_append, enum_eq_enumFrom_zero cards]
  · have h1 : ((dealLoop cards 0 (List.replicate 8 []) []).1).get? k = none := by
      apply List.get?_eq_none.mpr
      rw [hlen]
      omega
    have h2 : ((List.range 8).map (fun j =>
        ((cards.enum.filter (fun p => p.1 % 8 = j)).map Prod.snd))).get? k =
        none := by
      apply List.get?_eq_none.mpr
      rw [List.length_map, List.length_range]
      omega
    rw [h1, h2]

theorem reset_cascades_eq_spec (seed : Int) :
    (reset seed).cascades = specCascades seed := by
  rw [reset_eq]
  unfold specCascades
  rw [← dealtCards_eq_specCards seed]
  exact deal_cascades_gen seed (dealtCards seed)

theorem test_win_of_all_empty (g : GameState)
    (h : ∀ s ∈ g.cascades, s = []) : test_win g = true := by
  unfold test_win
  rw [List.all_eq_true]
  intro s hs
  rw [h s hs]
  rfl

/-! ## Remaining supporting lemmas -/

theorem resStateD_ok (g : GameState) (ms : List Msg) :
    resStateD (.ok g ms) = g := rfl

theorem oneLine_zap (f : Nat) (g : GameState) :
    oneLine (f + 1) g (String.toList "ZAP") = .ok (reset g.seed) [] := by
  have ht : tokenize (String.toList "ZAP") = [ZAP_W] := by decide
  have h1 : (ZAP_W : Str).isPrefixOf QUIT_W = false := by decide
  have h2 : (ZAP_W : Str).isPrefixOf REPLAY_W = false := by decide
  have h3 : (ZAP_W : Str).isPrefixOf UNDO_W = false := by decide
  have h4 : (ZAP_W : Str).isPrefixOf ZAP_W = true := by decide
  simp only [oneLine, ht, List.headD_cons, h1, h2, h3, h4, Bool.false_eq_true,
    if_false, if_true]

theorem rank_le_of_reach {g : GameState} (hInv : Inv g) :
    ∀ s ∈ g.cascades, ∀ c ∈ s, c.rank ≤ 12 := by
  intro s hs c hc
  obtain ⟨i, hget⟩ := List.get?_of_mem hs
  obtain ⟨hi, hgetD⟩ := get?_some_getD ([] : List Card) hget
  have h1 : c ∈ mflat g.cascades := mem_mflat_of_getD hi (by rw [hgetD]; exact hc)
  have h2 : c ∈ allCardsM g := by
    unfold allCardsM
    exact Multiset.mem_add.mpr (Or.inl (Multiset.mem_add.mpr (Or.inl h1)))
  rw [hInv.cons] at h2
  exact (deck52_props c (Multiset.mem_coe.mp h2)).2

/-! ## The claims -/

/-- Claim C1: the spec says a foundation move for a card whose suit's
foundation is empty and whose rank is not 0 is reported as an illegal move
via a message, with the state unchanged and no exception escaping the
engine.  The code evaluates `f.peek().rank` whenever the first disjunct of
the legality test is false, so with an empty foundation `peek()` is `None`
and an `AttributeError` escapes `one_line` (whose handler catches only
`IndexError` and `KeyError`).  Here concretely: at the default deal 11982
the command `KC F` (King of Clubs to an empty foundation) makes the engine
raise `AttributeError` instead of printing a message. -/
theorem C1_empty_foundation_attributeError :
    oneLine 1 (reset 11982) (String.toList "KC F") =
      .exc .attributeError [] := by decide

/-- Claim C2 (amended): applying an accepted card-move command and then
UNDO exactly restores the previous state — PROVIDED the move log was
nonempty before the move.  The claim's "in particular" case (undo of the
very first move, log of length 1) is false: the truncated log is empty and
replaying it feeds the empty token to `one_line`, which prefix-matches
QUIT and terminates the session (see the counterexample). -/
theorem C2_undo_restores_after_prior_move {g g1 : GameState} {n : Str}
    {d : MDest} {ms : List Msg} {f : Nat}
    (hr : Reach g) (hn : n ∈ keys52)
    (hacc : oneLine (f + 1) g (renderCmd n d) = .ok g1 ms)
    (hgrew : g1.moves.length = g.moves.length + 1)
    (hprev : g.moves ≠ []) (k : Nat) :
    ∃ ms2, oneLine (k + 2) g1 (String.toList "UNDO") = .ok g ms2 :=
  undo_restores hr hn hacc hgrew hprev k

/-- Witness for C2: at seed 1, after the two accepted moves `6S O` and
`6D O`, the UNDO command restores exactly the state after `6S O`. -/
theorem C2_undo_witness :
    ∃ ms2, oneLine 2
      (resStateD (oneLine 1
        (resStateD (oneLine 1 (reset 1) (renderCmd (String.toList "6S") .toOpn)))
        (renderCmd (String.toList "6D") .toOpn)))
      (String.toList "UNDO") =
      .ok (resStateD (oneLine 1 (reset 1)
        (renderCmd (String.toList "6S") .toOpn))) ms2 :=
  C2_undo_restores_after_prior_move
    (Reach.step (String.toList "6S") .toOpn 0 (Reach.init 1) (by decide)
      (by decide :
        oneLine 1 (reset 1) (renderCmd (String.toList "6S") .toOpn) =
          .ok (resStateD (oneLine 1 (reset 1)
            (renderCmd (String.toList "6S") .toOpn))) [.moveOpenCell]))
    (by decide)
    (by decide :
      oneLine 1
        (resStateD (oneLine 1 (reset 1) (renderCmd (String.toList "6S") .toOpn)))
        (renderCmd (String.toList "6D") .toOpn) =
        .ok (resStateD (oneLine 1
          (resStateD (oneLine 1 (reset 1) (renderCmd (String.toList "6S") .toOpn)))
          (renderCmd (String.toList "6D") .toOpn))) [.moveOpenCell])
    (by decide) (by decide) 0

/-- Counterexample for C2's "in particular" case: at seed 1, after the
single accepted move `6S O`, UNDO terminates the session (`sys.exit`)
instead of restoring the pre-move state. -/
theorem C2_undo_first_move_quits :
    oneLine 2
      (resStateD (oneLine 1 (reset 1) (renderCmd (String.toList "6S") .toOpn)))
      (String.toList "UNDO") = .quit [.bye] := by decide

/-- Claim C3: the spec says the open pool never exceeds 4 cards and a fifth
request is rejected with the no-open-cells outcome.  The code checks
`len(open) <= N_OPEN` BEFORE pushing, so a fifth card is accepted when the
pool already holds 4.  At seed 1 the five commands `6S O`, `6D O`, `3S O`,
`4C O`, `2S O` are all accepted: after four the pool holds 4, the fifth
still answers with the move-to-open-cell message, and the pool then holds
5 cards. -/
theorem C3_five_open_cards :
    (resStateD (oneLine 1 (resStateD (oneLine 1 (resStateD (oneLine 1
      (resStateD (oneLine 1 (reset 1) (String.toList "6S O")))
      (String.toList "6D O"))) (String.toList "3S O")))
      (String.toList "4C O"))).opn.length = 4 ∧
    resMsgs (oneLine 1 (resStateD (oneLine 1 (resStateD (oneLine 1
      (resStateD (oneLine 1 (resStateD (oneLine 1 (reset 1)
      (String.toList "6S O"))) (String.toList "6D O")))
      (String.toList "3S O"))) (String.toList "4C O")))
      (String.toList "2S O")) = [.moveOpenCell] ∧
    (resStateD (oneLine 1 (resStateD (oneLine 1 (resStateD (oneLine 1
      (resStateD (oneLine 1 (resStateD (oneLine 1 (reset 1)
      (String.toList "6S O"))) (String.toList "6D O")))
      (String.toList "3S O"))) (String.toList "4C O")))
      (String.toList "2S O"))).opn.length = 5 := by decide

/-- Claim C4: for every integer seed, `reset(seed)` deals exactly by the
documented algorithm — the cascades of the dealt state equal those computed
by the spec-modelled dealer (`specState`/`specDraw`/`specShuffleTo`/
`specCards`/`specCascades`, written from §4.2 of the spec): LCG from
`seed & 0x7FFFFFFF`, draws `state >> 16`, deck 51 down to 0, swap
`j = 51 - (r mod (52 - i))`, card `(c mod 4, c div 4)`, card `i` onto
cascade `i mod 8` first-dealt at the bottom. -/
theorem C4_deal_refines_spec (seed : Int) :
    (reset seed).cascades = specCascades seed :=
  reset_cascades_eq_spec seed

/-- Claim C5 (amended): in every reachable state the multiset of cards
across cascades, open pool and foundations is exactly the 52 distinct
cards — no duplicate, none missing — and every layout entry agrees with
the container holding its card in the corrected sense (`Agrees`): cascade
entries name their holding cascade, open entries lie in the pool, and
foundation entries lie on their card's suit foundation while their stored
`index` is always 0 (the source writes `position.index = 0`, not the
foundation number — see the counterexample). -/
theorem C5_conservation_and_agreement {g : GameState} (hr : Reach g) :
    allCardsM g = (deck52 : Multiset Card) ∧ (allCardsM g).Nodup ∧
    (∀ kp ∈ g.layout, Agrees g kp.2) := by
  have hInv := reach_inv hr
  refine ⟨hInv.cons, ?_, hInv.agree⟩
  rw [hInv.cons]
  exact Multiset.coe_nodup.mpr deck52_nodup

/-- Witness for C5: the freshly dealt state of seed 0 conserves the 52
cards and its layout agrees with its containers. -/
theorem C5_witness :
    allCardsM (reset 0) = (deck52 : Multiset Card) ∧
    (allCardsM (reset 0)).Nodup ∧
    (∀ kp ∈ (reset 0).layout, Agrees (reset 0) kp.2) :=
  C5_conservation_and_agreement (Reach.init 0)

/-- Counterexample for C5's position-index clause read as "the index names
the container": at seed 3 the accepted move `AH F` puts the Ace of Hearts
(suit 2) on foundation 2, yet its layout entry stores `index = 0`. -/
theorem C5_foundation_index_mismatch :
    (resStateD (oneLine 1 (reset 3) (String.toList "AH F"))).layout.lookup
      (String.toList "AH") = some ⟨⟨2, 0⟩, .F, 0, 0, 0⟩ ∧
    (⟨2, 0⟩ : Card) ∈
      (resStateD (oneLine 1 (reset 3) (String.toList "AH F"))).fond.getD 2 [] := by
  decide

/-- Claim C6 (amended): after every successful foundation move the moved
card's position record is `(F, 0, 0, weight 0)` — `where` is Foundation
and depth and weight are 0 as claimed, but the stored `index` is always 0
(`position.index = 0` in `do_play_foundation`), NOT the card's suit as the
spec says; the two agree only for suit 0 (clubs). -/
theorem C6_foundation_position {g g' : GameState} {mv name : Str}
    {ms : List Msg}
    (hInv : Inv g) (h : try_play_fond g mv name = .ok (g', ms))
    (hmoved : g'.moves ≠ g.moves) :
    ∃ pos, g.layout.lookup name = some pos ∧
      g'.layout.lookup (repr_card pos.card) = some ⟨pos.card, .F, 0, 0, 0⟩ := by
  obtain ⟨_, hc⟩ := try_play_fond_spec hInv h
  rcases hc with rfl | ⟨hm, _, _, hex⟩
  · exact absurd rfl hmoved
  · exact hex

/-- Witness for C6: the accepted foundation move `AH F` at seed 3 leaves
the Ace of Hearts with position `(F, 0, 0, 0)`. -/
theorem C6_witness :
    ∃ pos, (reset 3).layout.lookup (String.toList "AH") = some pos ∧
      (resStateD (oneLine 1 (reset 3) (String.toList "AH F"))).layout.lookup
        (repr_card pos.card) = some ⟨pos.card, .F, 0, 0, 0⟩ :=
  C6_foundation_position (inv_reset 3)
    (rfl :
      try_play_fond (reset 3) (String.toList "AH F") (String.toList "AH") =
        .ok (resStateD (oneLine 1 (reset 3) (String.toList "AH F")),
          [.playFond]))
    (by decide)

/-- Counterexample for C6's index clause: at seed 4 the accepted move
`AD F` moves the Ace of Diamonds (suit 1) to foundation 1, but its
position record stores `index = 0`, not the suit 1. -/
theorem C6_foundation_index_zero :
    (resStateD (oneLine 1 (reset 4) (String.toList "AD F"))).layout.lookup
      (String.toList "AD") = some ⟨⟨1, 0⟩, .F, 0, 0, 0⟩ := by decide

/-- Claim C7: in every reachable state, `test_win` is true iff every
cascade is non-increasing in rank from bottom to top (rank alone, suit and
colour ignored); the verbose diagnostic trace computes the same boolean;
and a state whose eight cascades are all empty reports a win. -/
theorem C7_test_win_characterisation {g : GameState} (hr : Reach g) :
    (test_win g = true ↔ ∀ s ∈ g.cascades, NonIncr s) ∧
    (test_win_trace g).1 = test_win g ∧
    ((∀ s ∈ g.cascades, s = []) → test_win g = true) :=
  ⟨test_win_iff g (rank_le_of_reach (reach_inv hr)),
   test_win_trace_fst g, test_win_of_all_empty g⟩

/-- Witness for C7: the characterisation instantiated at the freshly dealt
state of seed 0. -/
theorem C7_witness :
    (test_win (reset 0) = true ↔ ∀ s ∈ (reset 0).cascades, NonIncr s) ∧
    (test_win_trace (reset 0)).1 = test_win (reset 0) ∧
    ((∀ s ∈ (reset 0).cascades, s = []) → test_win (reset 0) = true) :=
  C7_test_win_characterisation (Reach.init 0)

/-- Claim C8: dealing from a seed is deterministic — re-dealing (the ZAP
command resets from the current seed) from any two states carrying the
same seed, whatever their histories, produces identical states, whose
cascades and layout are those of `reset` of that seed. -/
theorem C8_deal_deterministic (s : Int) (g1 g2 : GameState)
    (h1 : g1.seed = s) (h2 : g2.seed = s) (f : Nat) :
    resStateD (oneLine (f + 1) g1 (String.toList "ZAP")) =
      resStateD (oneLine (f + 1) g2 (String.toList "ZAP")) ∧
    (resStateD (oneLine (f + 1) g1 (String.toList "ZAP"))).cascades =
      (reset s).cascades ∧
    (resStateD (oneLine (f + 1) g1 (String.toList "ZAP"))).layout =
      (reset s).layout := by
  rw [oneLine_zap f g1, oneLine_zap f g2, h1, h2, resStateD_ok]
  exact ⟨rfl, rfl, rfl⟩

/-- Witness for C8: re-dealing seed 5 from the dealt state of seed 5. -/
theorem C8_witness :
    resStateD (oneLine 1 (reset 5) (String.toList "ZAP")) =
      resStateD (oneLine 1 (reset 5) (String.toList "ZAP")) ∧
    (resStateD (oneLine 1 (reset 5) (String.toList "ZAP"))).cascades =
      (reset 5).cascades ∧
    (resStateD (oneLine 1 (reset 5) (String.toList "ZAP"))).layout =
      (reset 5).layout :=
  C8_deal_deterministic 5 (reset 5) (reset 5) (reset_seed_eq 5)
    (reset_seed_eq 5) 0

/-- Claim C9: the spec says a CASCADE command with a missing, non-integer
or out-of-range index is reported as a malformed command via a message
with the state unchanged and no exception.  A non-integer index makes
`int(line[2])` raise `ValueError`, which `one_line` does not catch — the
exception escapes (first conjunct, command `2C C X` at the default deal).
A negative index is not treated as malformed either: Python list indexing
wraps it, so `-1` addresses cascade 7 and the engine answers with the
ordinary ILLEGAL MOVE legality outcome (state unchanged), not the
malformed-command message (second and third conjuncts, command
`KC C -1`). -/
theorem C9_cascade_index_errors :
    oneLine 1 (reset 11982) (String.toList "2C C X") = .exc .valueError [] ∧
    resMsgs (oneLine 1 (reset 11982) (String.toList "KC C -1")) =
      [.illegalMove] ∧
    resStateD (oneLine 1 (reset 11982) (String.toList "KC C -1")) =
      reset 11982 := by decide

/-- Claim C10: an input line whose first token is empty (an empty or
whitespace-only line) prefix-matches QUIT — the empty string is a prefix
of every word — so `one_line` terminates the session; consequently undoing
the only move of the log (whose truncated replay log is the empty string,
split into one empty entry) terminates the session instead of restoring
the pre-move state, as shown concretely at seed 1 after the accepted move
`6S O`. -/
theorem C10_empty_token_quits :
    (∀ (f : Nat) (g : GameState) (raw : Str), (tokenize raw).headD [] = [] →
      oneLine (f + 1) g raw = .quit [.bye]) ∧
    oneLine 3 (resStateD (oneLine 1 (reset 1) (String.toList "6S O")))
      (String.toList "UNDO") = .quit [.bye] := by
  constructor
  · intro f g raw h
    have hpre : (([] : Str).isPrefixOf QUIT_W) = true := by decide
    simp only [oneLine, h, hpre, if_true]
  · decide

/-- Witness for C10: a whitespace-only input line ends the session. -/
theorem C10_witness :
    oneLine 1 (reset 0) (String.toList "   ") = .quit [.bye] :=
  C10_empty_token_quits.1 0 (reset 0) (String.toList "   ") (by decide)

end FC
